import Mathlib

/-!
# Verification of the resource-lifecycle and cache-aside core

A shallow embedding, in Lean 4, of the core components of the data-serving
backend: the pool sizer (`calculate_optimal_pool_size`), the scoped
connection / transaction executors (`with_connection`, `with_transaction`),
the shutdown coordinator and the per-pool drain tasks
(`shutdown_pool_with_timeout` for both backing stores), and the cache-aside
aggregation read path (`handler`, `cache_key`).

Conventions:
* Rust machine integers are modelled as `ℤ` / `ℕ` with explicit saturation
  and wrapping where the source relies on it.
* The `f32` arithmetic in the pool sizer is modelled exactly: a binary32
  value is a pair `m * 2^e`, and every rounding step (int-to-float casts and
  float division) is round-to-nearest, ties-to-even, computed over integers.
* Stateful code is embedded by explicit state passing; the behaviour of the
  external drivers (bb8 pool, diesel transactions, redis commands, serde)
  is modelled by oracles for their outcomes.
-/

set_option maxRecDepth 8000
set_option maxHeartbeats 1000000

namespace Renewabl

/-! ## PoolSizer: `calculate_optimal_pool_size` (libs/postgres_models/src/connection.rs)

The source computes
`(db_max_connections.saturating_sub(reserved as i32) as f32 / num as f32).floor() as u32`
capped at `MAX_POOL_SIZE`.  The f32 arithmetic is modelled exactly. -/

/-- Round `n / d` (with `d > 0`) to the nearest integer, ties to even. -/
def rneFrac (n d : ℤ) : ℤ :=
  if 2 * (n % d) < d then n / d
  else if d < 2 * (n % d) then n / d + 1
  else if (n / d) % 2 = 0 then n / d else n / d + 1

/-- Fuel-bounded base-2 logarithm on naturals (`⌊log₂ n⌋` for `1 ≤ n < 2^fuel`). -/
def log2f : ℕ → ℕ → ℕ
  | 0, _ => 0
  | fuel + 1, n => if n ≤ 1 then 0 else log2f fuel (n / 2) + 1

/-- Fuel-bounded search for the least `k` with `d ≤ n * 2^k` (used for `0 < n < d`). -/
def nexpZ : ℕ → ℤ → ℤ → ℕ
  | 0, _, _ => 0
  | fuel + 1, n, d => if d ≤ n then 0 else nexpZ fuel (2 * n) d + 1

/-- Binade exponent of the positive fraction `n / d`:
`2^(qexp n d) ≤ n/d < 2^(qexp n d + 1)` (for operands within the fuel bound). -/
def qexp (n d : ℤ) : ℤ :=
  if d ≤ n then (log2f 300 (n / d).toNat : ℤ) else -(nexpZ 300 n d : ℤ)

/-- An IEEE binary32 value, represented exactly as `m * 2^e`. -/
structure F32 where
  m : ℤ
  e : ℤ
deriving DecidableEq

/-- The exact rational value of a binary32 representation. -/
def F32.val (x : F32) : ℚ :=
  (x.m : ℚ) * 2 ^ x.e

/-- Round the positive fraction `n / d` (`n, d ≥ 1`) to the nearest binary32
value: scale `n / d` into the binade `[2^23, 2^24)` and round the mantissa
to nearest, ties to even. -/
def roundFrac (n d : ℤ) : F32 :=
  let e := qexp n d
  let m :=
    if 0 ≤ 23 - e then rneFrac (n * 2 ^ (23 - e).toNat) d
    else rneFrac n (d * 2 ^ (e - 23).toNat)
  ⟨m, e - 23⟩

/-- `as f32` cast of an integer (covers the `i32 as f32` and `u32 as f32`
casts in the source; round to nearest, ties to even). -/
def roundInt (z : ℤ) : F32 :=
  if z < 0 then let f := roundFrac (-z) 1; ⟨-f.m, f.e⟩
  else if z = 0 then ⟨0, 0⟩
  else roundFrac z 1

/-- Correctly rounded binary32 division, for the sign pattern of the
pool-size computation (divisor positive).  Division by a zero f32 (an
instance count of 0, giving an IEEE infinity or NaN) is outside the model:
every claim fixes the instance count to at least 1, and the source always
passes 1. -/
def divF32 (a b : F32) : F32 :=
  if b.m ≤ 0 then ⟨0, 0⟩
  else
    let s := a.e - b.e
    let n : ℤ := if 0 ≤ s then a.m * 2 ^ s.toNat else a.m
    let d : ℤ := if 0 ≤ s then b.m else b.m * 2 ^ (-s).toNat
    if n < 0 then let f := roundFrac (-n) d; ⟨-f.m, f.e⟩
    else if n = 0 then ⟨0, 0⟩
    else roundFrac n d

/-- `f32::floor`, computed exactly on the representation. -/
def floorF32 (x : F32) : ℤ :=
  if 0 ≤ x.e then x.m * 2 ^ x.e.toNat else x.m / 2 ^ (-x.e).toNat

/-- Rust `as u32` saturating cast from an (integral) f32 value: negative
values give `0`, values above `u32::MAX` give `u32::MAX`. -/
def u32ofInt (z : ℤ) : ℕ :=
  (min (2 ^ 32 - 1) z).toNat

/-- `i32::saturating_sub`. -/
def i32satSub (a b : ℤ) : ℤ :=
  max (-(2 ^ 31)) (min (2 ^ 31 - 1) (a - b))

/-- `u32 as i32` (two's-complement wrap). -/
def u32toi32 (r : ℕ) : ℤ :=
  if r < 2 ^ 31 then (r : ℤ) else (r : ℤ) - 2 ^ 32

/-- `MAX_POOL_SIZE` from libs/postgres_models/src/connection.rs line 19. -/
def MAX_POOL_SIZE : ℕ := 300

/-- `MIN_RESERVED_CONNECTIONS` from libs/postgres_models/src/connection.rs line 20. -/
def MIN_RESERVED_CONNECTIONS : ℕ := 10

/-- `calculate_optimal_pool_size` from libs/postgres_models/src/connection.rs
lines 62-74:
`available = db_max_connections.saturating_sub(reserved_for_admin as i32)`;
`per_instance = (available as f32 / num_app_instances as f32).floor() as u32`;
result `= per_instance.min(MAX_POOL_SIZE)`. -/
def calculate_optimal_pool_size (db_max_connections : ℤ)
    (num_app_instances : ℕ) (reserved_for_admin : ℕ) : ℕ :=
  let available : ℤ :=
    i32satSub db_max_connections (u32toi32 reserved_for_admin)
  let per_instance : ℕ :=
    u32ofInt (floorF32 (divF32 (roundInt available)
      (roundInt (num_app_instances : ℤ))))
  min per_instance MAX_POOL_SIZE

/-- The spec's PoolSizer formula:
`min(floor(max(0, storeMax - reserved) / instances), HARD_CEILING)`
with `HARD_CEILING = 300`. -/
def computeSizeSpec (storeMax : ℤ) (instances : ℕ) (reserved : ℕ) : ℕ :=
  min ((max 0 (storeMax - (reserved : ℤ))).toNat / instances) 300

theorem rneFrac_bounds (n d : ℤ) (hd : 0 < d) :
    (n : ℚ) / d - 1/2 ≤ (rneFrac n d : ℚ) ∧ (rneFrac n d : ℚ) ≤ (n : ℚ) / d + 1/2 := by
  have hdq : (0 : ℚ) < (d : ℚ) := by exact_mod_cast hd
  have hdq0 : (d : ℚ) ≠ 0 := ne_of_gt hdq
  have hzint : (n : ℚ) = (d : ℚ) * ((n / d : ℤ) : ℚ) + ((n % d : ℤ) : ℚ) := by
    exact_mod_cast (Int.ediv_add_emod n d).symm
  have hsplit : (n : ℚ) / d = ((n / d : ℤ) : ℚ) + ((n % d : ℤ) : ℚ) / d := by
    rw [hzint]
    field_simp
    ring
  have hr0 : (0 : ℤ) ≤ n % d := Int.emod_nonneg n (ne_of_gt hd)
  have hrd : n % d < d := Int.emod_lt_of_pos n hd
  have hr0q : (0 : ℚ) ≤ ((n % d : ℤ) : ℚ) := by exact_mod_cast hr0
  have hrdq : ((n % d : ℤ) : ℚ) < (d : ℚ) := by exact_mod_cast hrd
  unfold rneFrac
  split_ifs with h1 h2 h3
  · have h2q : 2 * ((n % d : ℤ) : ℚ) < d := by exact_mod_cast h1
    have hle : ((n % d : ℤ) : ℚ) / d ≤ 1/2 := by rw [div_le_iff hdq]; linarith
    have hge : (0:ℚ) ≤ ((n % d : ℤ) : ℚ) / d := div_nonneg hr0q (le_of_lt hdq)
    constructor <;> rw [hsplit] <;> linarith
  · have h2q : (d : ℚ) < 2 * ((n % d : ℤ) : ℚ) := by exact_mod_cast h2
    have hlt : ((n % d : ℤ) : ℚ) / d < 1 := by rw [div_lt_one hdq]; linarith
    have hge : 1/2 ≤ ((n % d : ℤ) : ℚ) / d := by rw [le_div_iff hdq]; linarith
    constructor <;> rw [hsplit] <;> push_cast <;> linarith
  · have htie : 2 * (n % d) = d := by omega
    have htq : ((n % d : ℤ) : ℚ) / d = 1/2 := by
      rw [div_eq_iff hdq0]
      have : ((2 * (n % d) : ℤ) : ℚ) = (d : ℚ) := by exact_mod_cast congrArg Int.cast htie
      push_cast at this ⊢
      linarith
    constructor <;> rw [hsplit, htq] <;> linarith
  · have htie : 2 * (n % d) = d := by omega
    have htq : ((n % d : ℤ) : ℚ) / d = 1/2 := by
      rw [div_eq_iff hdq0]
      have : ((2 * (n % d) : ℤ) : ℚ) = (d : ℚ) := by exact_mod_cast congrArg Int.cast htie
      push_cast at this ⊢
      linarith
    constructor <;> rw [hsplit, htq] <;> push_cast <;> linarith

theorem rneFrac_of_dvd (n d : ℤ) (hd : 0 < d) (hdvd : d ∣ n) :
    rneFrac n d = n / d := by
  unfold rneFrac
  have hr : n % d = 0 := Int.emod_eq_zero_of_dvd hdvd
  rw [hr]
  simp [hd]

theorem log2f_correct : ∀ (fuel n : ℕ), 1 ≤ n → n < 2 ^ fuel →
    2 ^ (log2f fuel n) ≤ n ∧ n < 2 ^ (log2f fuel n + 1) := by
  intro fuel
  induction fuel with
  | zero => intro n h1 h2; simp at h2; omega
  | succ f ih =>
    intro n h1 h2
    unfold log2f
    split
    · rename_i hle
      have hn : n = 1 := by omega
      subst hn
      refine ⟨by simp, by simp⟩
    · rename_i hgt
      have hn2 : 2 ≤ n := by omega
      have h1' : 1 ≤ n / 2 := by omega
      have h2' : n / 2 < 2 ^ f := by
        have hlt : n < 2 * 2 ^ f := by
          calc n < 2 ^ (f + 1) := h2
          _ = 2 * 2 ^ f := by ring
        omega
      obtain ⟨hl, hr⟩ := ih (n / 2) h1' h2'
      constructor
      · calc 2 ^ (log2f f (n / 2) + 1) = 2 * 2 ^ (log2f f (n / 2)) := by ring
        _ ≤ 2 * (n / 2) := by omega
        _ ≤ n := by omega
      · have expand : 2 ^ (log2f f (n / 2) + 1 + 1) = 2 * 2 ^ (log2f f (n / 2) + 1) := by ring
        omega

theorem nexpZ_of_le (fuel : ℕ) (n d : ℤ) (h : d ≤ n) : nexpZ fuel n d = 0 := by
  cases fuel with
  | zero => rfl
  | succ f => unfold nexpZ; simp [h]

theorem nexpZ_correct : ∀ (fuel : ℕ) (n d : ℤ), 1 ≤ n → n < d → d ≤ n * 2 ^ fuel →
    d ≤ n * 2 ^ (nexpZ fuel n d) ∧ n * 2 ^ (nexpZ fuel n d) < 2 * d := by
  intro fuel
  induction fuel with
  | zero => intro n d h1 h2 h3; simp at h3; omega
  | succ f ih =>
    intro n d h1 h2 h3
    unfold nexpZ
    split
    · omega
    · rename_i hnd
      by_cases hc : d ≤ 2 * n
      · rw [nexpZ_of_le f (2 * n) d hc]
        constructor
        · have : n * 2 ^ (0 + 1 : ℕ) = 2 * n := by ring
          omega
        · have : n * 2 ^ (0 + 1 : ℕ) = 2 * n := by ring
          rw [this]
          omega
      · push_neg at hc
        have h3' : d ≤ 2 * n * 2 ^ f := by
          have : n * 2 ^ (f + 1) = 2 * n * 2 ^ f := by ring
          omega
        obtain ⟨hl, hr⟩ := ih (2 * n) d (by omega) hc h3'
        constructor
        · have : n * 2 ^ (nexpZ f (2 * n) d + 1) = 2 * n * 2 ^ (nexpZ f (2 * n) d) := by ring
          omega
        · have : n * 2 ^ (nexpZ f (2 * n) d + 1) = 2 * n * 2 ^ (nexpZ f (2 * n) d) := by ring
          omega

theorem qexp_correct (n d : ℤ) (hn : 1 ≤ n) (hd : 1 ≤ d)
    (hnb : n ≤ 2 ^ 250) (hdb : d ≤ 2 ^ 250) :
    (2 : ℚ) ^ (qexp n d) ≤ (n : ℚ) / d ∧ (n : ℚ) / d < 2 ^ (qexp n d + 1) := by
  have hdq : (0 : ℚ) < (d : ℚ) := by exact_mod_cast (by omega : (0:ℤ) < d)
  have hfloor : ⌊(n : ℚ) / d⌋ = n / d := by
    have hdt : ((d.toNat : ℕ) : ℤ) = d := Int.toNat_of_nonneg (by omega)
    have h := Rat.floor_intCast_div_natCast n d.toNat
    rw [hdt] at h
    have hq : ((d.toNat : ℕ) : ℚ) = (d : ℚ) := by exact_mod_cast hdt
    rw [← hq]
    exact h
  unfold qexp
  split
  · rename_i hdn
    have ht1 : 1 ≤ n / d := (Int.le_ediv_iff_mul_le (by omega)).mpr (by omega)
    have htn : n / d ≤ n := Int.ediv_le_self d (by omega)
    have ht1n : 1 ≤ (n / d).toNat := by omega
    have h250 : (2:ℤ) ^ 250 < 2 ^ 300 := by norm_num
    have htb : (n / d).toNat < 2 ^ 300 := by
      have h300 : ((2:ℕ) ^ 300 : ℤ) = (2:ℤ) ^ 300 := by push_cast; ring
      omega
    obtain ⟨hl, hr⟩ := log2f_correct 300 (n / d).toNat ht1n htb
    have hlz : ((2:ℤ) ^ (log2f 300 (n / d).toNat) : ℤ) ≤ n / d := by
      have hc : ((2 ^ log2f 300 (n / d).toNat : ℕ) : ℤ) ≤ ((n / d).toNat : ℤ) := by
        exact_mod_cast hl
      push_cast at hc
      omega
    have hrz : n / d < ((2:ℤ) ^ (log2f 300 (n / d).toNat + 1) : ℤ) := by
      have hc : (((n / d).toNat : ℕ) : ℤ) < ((2 ^ (log2f 300 (n / d).toNat + 1) : ℕ) : ℤ) := by
        exact_mod_cast hr
      push_cast at hc
      omega
    have hfle : ((n / d : ℤ) : ℚ) ≤ (n : ℚ) / d := by
      rw [← hfloor]; exact Int.floor_le _
    have hflt : (n : ℚ) / d < ((n / d : ℤ) : ℚ) + 1 := by
      rw [← hfloor]; exact Int.lt_floor_add_one _
    constructor
    · rw [zpow_natCast]
      have h1 : ((2:ℚ) ^ (log2f 300 (n / d).toNat)) ≤ ((n / d : ℤ) : ℚ) := by
        exact_mod_cast hlz
      linarith
    · have hcast : ((log2f 300 (n / d).toNat : ℕ) : ℤ) + 1 =
          ((log2f 300 (n / d).toNat + 1 : ℕ) : ℤ) := by push_cast; ring
      rw [hcast, zpow_natCast]
      have h1 : ((n / d : ℤ) : ℚ) + 1 ≤ (2:ℚ) ^ (log2f 300 (n / d).toNat + 1) := by
        have h2 : n / d + 1 ≤ (2:ℤ) ^ (log2f 300 (n / d).toNat + 1) := by omega
        exact_mod_cast h2
      linarith
  · rename_i hdn
    push_neg at hdn
    have hfuel : d ≤ n * 2 ^ 300 := by
      have h1 : d ≤ 2 ^ 300 := by
        have h2 : (2:ℤ) ^ 250 ≤ 2 ^ 300 := by norm_num
        omega
      nlinarith [pow_pos (show (0:ℤ) < 2 by norm_num) 300]
    obtain ⟨hl, hr⟩ := nexpZ_correct 300 n d hn hdn hfuel
    have hkpos : (0:ℚ) < 2 ^ (nexpZ 300 n d : ℕ) := by positivity
    constructor
    · rw [zpow_neg, zpow_natCast, inv_eq_one_div, div_le_div_iff hkpos hdq]
      have hc : (d : ℚ) ≤ (n:ℚ) * 2 ^ (nexpZ 300 n d : ℕ) := by exact_mod_cast hl
      linarith
    · rw [zpow_add₀ (two_ne_zero) (-(nexpZ 300 n d : ℤ)) 1, zpow_neg, zpow_natCast,
        zpow_one, inv_eq_one_div, div_mul_eq_mul_div, one_mul, div_lt_div_iff hdq hkpos]
      have hc : (n:ℚ) * 2 ^ (nexpZ 300 n d : ℕ) < 2 * d := by exact_mod_cast hr
      linarith

theorem zpow_toNat_eq (e : ℤ) (h : 0 ≤ e) : ((2:ℚ)) ^ (e.toNat) = (2:ℚ) ^ e := by
  rw [← zpow_natCast, Int.toNat_of_nonneg h]

theorem roundFrac_e (n d : ℤ) : (roundFrac n d).e = qexp n d - 23 := by
  simp [roundFrac]

theorem roundFrac_m_close (n d : ℤ) (hn : 1 ≤ n) (hd : 1 ≤ d)
    (hnb : n ≤ 2 ^ 250) (hdb : d ≤ 2 ^ 250) :
    (n : ℚ) / d * 2 ^ (23 - qexp n d) - 1/2 ≤ ((roundFrac n d).m : ℚ) ∧
    ((roundFrac n d).m : ℚ) ≤ (n : ℚ) / d * 2 ^ (23 - qexp n d) + 1/2 := by
  have hdq : (0 : ℚ) < (d : ℚ) := by exact_mod_cast (by omega : (0:ℤ) < d)
  simp only [roundFrac]
  split_ifs with hcase
  · have hc : (((23 - qexp n d).toNat : ℕ) : ℤ) = 23 - qexp n d :=
      Int.toNat_of_nonneg hcase
    have hx : ((n * 2 ^ (23 - qexp n d).toNat : ℤ) : ℚ) / d =
        (n : ℚ) / d * 2 ^ (23 - qexp n d) := by
      push_cast
      rw [← zpow_toNat_eq (23 - qexp n d) hcase]
      ring
    have hb := rneFrac_bounds (n * 2 ^ (23 - qexp n d).toNat) d (by omega)
    rw [hx] at hb
    exact hb
  · push_neg at hcase
    have he23 : 0 ≤ qexp n d - 23 := by omega
    have hpow : (0:ℤ) < 2 ^ (qexp n d - 23).toNat := by positivity
    have hd' : (0:ℤ) < d * 2 ^ (qexp n d - 23).toNat := by positivity
    have hx : (n : ℚ) / ((d * 2 ^ (qexp n d - 23).toNat : ℤ) : ℚ) =
        (n : ℚ) / d * 2 ^ (23 - qexp n d) := by
      push_cast
      rw [zpow_toNat_eq (qexp n d - 23) he23]
      have h1 : (23 - qexp n d) = -(qexp n d - 23) := by ring
      rw [h1, zpow_neg]
      have hne : ((2:ℚ)) ^ (qexp n d - 23) ≠ 0 := by
        apply zpow_ne_zero; norm_num
      field_simp
    have hb := rneFrac_bounds n (d * 2 ^ (qexp n d - 23).toNat) hd'
    rw [hx] at hb
    exact hb

theorem roundFrac_x_range (n d : ℤ) (hn : 1 ≤ n) (hd : 1 ≤ d)
    (hnb : n ≤ 2 ^ 250) (hdb : d ≤ 2 ^ 250) :
    (2:ℚ) ^ (23:ℕ) ≤ (n : ℚ) / d * 2 ^ (23 - qexp n d) ∧
    (n : ℚ) / d * 2 ^ (23 - qexp n d) < 2 ^ (24:ℕ) := by
  obtain ⟨hl, hr⟩ := qexp_correct n d hn hd hnb hdb
  have hp : (0:ℚ) < 2 ^ (23 - qexp n d) := by
    apply zpow_pos; norm_num
  constructor
  · have h1 : (2:ℚ) ^ (qexp n d) * 2 ^ (23 - qexp n d) ≤
        (n : ℚ) / d * 2 ^ (23 - qexp n d) := by
      apply mul_le_mul_of_nonneg_right hl (le_of_lt hp)
    have h2 : (2:ℚ) ^ (qexp n d) * 2 ^ (23 - qexp n d) = 2 ^ (23:ℕ) := by
      rw [← zpow_add₀ (two_ne_zero : (2:ℚ) ≠ 0)]
      have he : qexp n d + (23 - qexp n d) = (23:ℤ) := by ring
      rw [he]
      norm_num
    linarith
  · have h1 : (n : ℚ) / d * 2 ^ (23 - qexp n d) <
        (2:ℚ) ^ (qexp n d + 1) * 2 ^ (23 - qexp n d) := by
      apply mul_lt_mul_of_pos_right hr hp
    have h2 : (2:ℚ) ^ (qexp n d + 1) * 2 ^ (23 - qexp n d) = 2 ^ (24:ℕ) := by
      rw [← zpow_add₀ (two_ne_zero : (2:ℚ) ≠ 0)]
      have he : qexp n d + 1 + (23 - qexp n d) = (24:ℤ) := by ring
      rw [he]
      norm_num
    linarith

theorem roundFrac_m_range (n d : ℤ) (hn : 1 ≤ n) (hd : 1 ≤ d)
    (hnb : n ≤ 2 ^ 250) (hdb : d ≤ 2 ^ 250) :
    2 ^ 23 ≤ (roundFrac n d).m ∧ (roundFrac n d).m ≤ 2 ^ 24 := by
  obtain ⟨hcl, hcr⟩ := roundFrac_m_close n d hn hd hnb hdb
  obtain ⟨hxl, hxr⟩ := roundFrac_x_range n d hn hd hnb hdb
  constructor
  · by_contra hcon
    push_neg at hcon
    have h1 : (roundFrac n d).m ≤ 2 ^ 23 - 1 := by omega
    have h2 : (((roundFrac n d).m : ℤ) : ℚ) ≤ ((2 ^ 23 - 1 : ℤ) : ℚ) := by
      exact_mod_cast h1
    push_cast at h2
    linarith
  · by_contra hcon
    push_neg at hcon
    have h1 : 2 ^ 24 + 1 ≤ (roundFrac n d).m := by omega
    have h2 : ((2 ^ 24 + 1 : ℤ) : ℚ) ≤ (((roundFrac n d).m : ℤ) : ℚ) := by
      exact_mod_cast h1
    push_cast at h2
    linarith

theorem zpow_int_lit (k : ℤ) (hk : 0 ≤ k) :
    (2:ℚ) ^ k = ((2 ^ k.toNat : ℤ) : ℚ) := by
  rw [← zpow_toNat_eq k hk]
  push_cast
  ring

theorem qexp_nonneg_of_le (n d : ℤ) (h : d ≤ n) : 0 ≤ qexp n d := by
  unfold qexp
  rw [if_pos h]
  positivity

theorem qexp_le_of_lt (n d : ℤ) (hn : 1 ≤ n) (hd : 1 ≤ d)
    (hnb : n ≤ 2 ^ 250) (hdb : d ≤ 2 ^ 250) (E : ℤ)
    (h : (n : ℚ) / d < 2 ^ (E + 1)) : qexp n d ≤ E := by
  obtain ⟨hl, _⟩ := qexp_correct n d hn hd hnb hdb
  have := lt_of_le_of_lt hl h
  rw [zpow_lt_zpow_iff_right₀ (by norm_num : (1:ℚ) < 2)] at this
  omega

theorem floorF32_roundFrac (n d : ℤ) :
    floorF32 (roundFrac n d) = ⌊((roundFrac n d).m : ℚ) * 2 ^ (qexp n d - 23)⌋ := by
  have he : (roundFrac n d).e = qexp n d - 23 := roundFrac_e n d
  unfold floorF32
  rw [he]
  split_ifs with hcase
  · have hz : ((roundFrac n d).m : ℚ) * 2 ^ (qexp n d - 23) =
        (((roundFrac n d).m * 2 ^ (qexp n d - 23).toNat : ℤ) : ℚ) := by
      push_cast
      rw [zpow_toNat_eq _ hcase]
    rw [hz, Int.floor_intCast]
  · push_neg at hcase
    have h23 : 0 ≤ 23 - qexp n d := by omega
    have hneg : -(qexp n d - 23) = 23 - qexp n d := by ring
    have hz : ((roundFrac n d).m : ℚ) * 2 ^ (qexp n d - 23) =
        ((roundFrac n d).m : ℚ) / (((2 ^ (23 - qexp n d).toNat : ℕ) : ℕ) : ℚ) := by
      push_cast
      rw [zpow_toNat_eq _ h23]
      have h1 : (qexp n d - 23 : ℤ) = -(23 - qexp n d) := by ring
      rw [h1, zpow_neg]
      ring
    rw [hz, Rat.floor_intCast_div_natCast]
    rw [hneg]
    push_cast
    rfl

theorem roundFrac_val_int (z : ℤ) (h1 : 1 ≤ z) (h2 : z ≤ 2 ^ 24) :
    (roundFrac z 1).val = (z : ℚ) := by
  have hq1 : ((1:ℤ) : ℚ) = 1 := by norm_num
  have hdiv1 : (z : ℚ) / ((1:ℤ) : ℚ) = (z : ℚ) := by rw [hq1, div_one]
  have hzb : z ≤ 2 ^ 250 := by
    have : (2:ℤ) ^ 24 ≤ 2 ^ 250 := by norm_num
    omega
  have h1b : (1:ℤ) ≤ 2 ^ 250 := by norm_num
  have he0 : 0 ≤ qexp z 1 := qexp_nonneg_of_le z 1 (by omega)
  have he24 : qexp z 1 ≤ 24 := by
    apply qexp_le_of_lt z 1 h1 (by norm_num) hzb h1b
    rw [hdiv1]
    have hz25 : (z : ℚ) ≤ (2:ℚ) ^ (24:ℤ) := by
      rw [zpow_int_lit 24 (by norm_num)]
      exact_mod_cast h2
    have hlt : (2:ℚ) ^ (24:ℤ) < 2 ^ ((24:ℤ) + 1) := by
      rw [zpow_lt_zpow_iff_right₀ (by norm_num : (1:ℚ) < 2)]
      omega
    linarith
  unfold F32.val
  rw [roundFrac_e]
  by_cases hle : qexp z 1 ≤ 23
  · have hc : 0 ≤ 23 - qexp z 1 := by omega
    have hm : (roundFrac z 1).m = z * 2 ^ (23 - qexp z 1).toNat := by
      simp only [roundFrac]
      rw [if_pos hc]
      rw [rneFrac_of_dvd _ 1 one_pos (one_dvd _), Int.ediv_one]
    rw [hm]
    push_cast
    rw [zpow_toNat_eq _ hc, mul_assoc, ← zpow_add₀ (two_ne_zero : (2:ℚ) ≠ 0)]
    have he : 23 - qexp z 1 + (qexp z 1 - 23) = 0 := by ring
    rw [he, zpow_zero, mul_one]
  · push_neg at hle
    have he24' : qexp z 1 = 24 := by omega
    have hz24 : z = 2 ^ 24 := by
      obtain ⟨hl, _⟩ := qexp_correct z 1 h1 (by norm_num) hzb h1b
      rw [hdiv1, he24'] at hl
      rw [zpow_int_lit 24 (by norm_num)] at hl
      have h24 : ((2:ℤ) ^ ((24:ℤ)).toNat) ≤ z := by exact_mod_cast hl
      have ht24 : ((24:ℤ)).toNat = 24 := rfl
      rw [ht24] at h24
      omega
    have hm : (roundFrac z 1).m = 2 ^ 23 := by
      simp only [roundFrac]
      rw [if_neg (by omega : ¬ 0 ≤ 23 - qexp z 1), he24', hz24]
      decide
    rw [hm, he24', hz24, show ((24:ℤ) - 23) = 1 by norm_num, zpow_one]
    push_cast
    norm_num

theorem roundInt_eq_pos (z : ℤ) (h1 : 1 ≤ z) : roundInt z = roundFrac z 1 := by
  unfold roundInt
  rw [if_neg (by omega), if_neg (by omega)]

theorem roundInt_spec (z : ℤ) (h1 : 1 ≤ z) (h2 : z ≤ 2 ^ 24) :
    (roundInt z).val = (z : ℚ) ∧ 2 ^ 23 ≤ (roundInt z).m ∧ (roundInt z).m ≤ 2 ^ 24 ∧
    -23 ≤ (roundInt z).e ∧ (roundInt z).e ≤ 1 := by
  rw [roundInt_eq_pos z h1]
  have hzb : z ≤ 2 ^ 250 := by
    have : (2:ℤ) ^ 24 ≤ 2 ^ 250 := by norm_num
    omega
  have h1b : (1:ℤ) ≤ 2 ^ 250 := by norm_num
  obtain ⟨hml, hmr⟩ := roundFrac_m_range z 1 h1 (by norm_num) hzb h1b
  have he0 : 0 ≤ qexp z 1 := qexp_nonneg_of_le z 1 (by omega)
  have he24 : qexp z 1 ≤ 24 := by
    apply qexp_le_of_lt z 1 h1 (by norm_num) hzb h1b
    have hdiv1 : (z : ℚ) / ((1:ℤ) : ℚ) = (z : ℚ) := by norm_num
    rw [hdiv1]
    have hz25 : (z : ℚ) ≤ (2:ℚ) ^ (24:ℤ) := by
      rw [zpow_int_lit 24 (by norm_num)]
      exact_mod_cast h2
    have hlt : (2:ℚ) ^ (24:ℤ) < 2 ^ ((24:ℤ) + 1) := by
      rw [zpow_lt_zpow_iff_right₀ (by norm_num : (1:ℚ) < 2)]
      omega
    linarith
  refine ⟨roundFrac_val_int z h1 h2, hml, hmr, ?_, ?_⟩
  · rw [roundFrac_e]; omega
  · rw [roundFrac_e]; omega

theorem floor_intCast_div (a b : ℤ) (hb : 0 < b) : ⌊(a:ℚ)/b⌋ = a / b := by
  have hbt : ((b.toNat : ℕ) : ℤ) = b := Int.toNat_of_nonneg (by omega)
  have h := Rat.floor_intCast_div_natCast a b.toNat
  rw [hbt] at h
  have hq : ((b.toNat : ℕ) : ℚ) = (b : ℚ) := by exact_mod_cast hbt
  rw [← hq]
  exact h

theorem u32ofInt_small (z : ℤ) (h0 : 0 ≤ z) (h1 : z ≤ 2 ^ 25) :
    u32ofInt z = z.toNat := by
  unfold u32ofInt
  have h32 : (2:ℤ) ^ 32 - 1 = 4294967295 := by norm_num
  have h25 : (2:ℤ) ^ 25 = 33554432 := by norm_num
  omega

theorem main_round (A B n d : ℤ) (hA1 : 1 ≤ A) (hA2 : A ≤ 2 ^ 24)
    (hB1 : 1 ≤ B) (hB2 : B ≤ 2 ^ 24)
    (hn : 1 ≤ n) (hd : 1 ≤ d) (hnb : n ≤ 2 ^ 250) (hdb : d ≤ 2 ^ 250)
    (hval : (n : ℚ) / d = (A : ℚ) / B) :
    min (u32ofInt (floorF32 (roundFrac n d))) 300 = min (A / B).toNat 300 := by
  have hBq : (0:ℚ) < (B:ℚ) := by exact_mod_cast (by omega : (0:ℤ) < B)
  have hAq : (0:ℚ) < (A:ℚ) := by exact_mod_cast (by omega : (0:ℤ) < A)
  have hq0 : (0:ℚ) < (A:ℚ) / B := div_pos hAq hBq
  have hkfloor : ⌊(A:ℚ)/B⌋ = A / B := floor_intCast_div A B (by omega)
  have hkq : ((A / B : ℤ) : ℚ) ≤ (A:ℚ)/B := by rw [← hkfloor]; exact Int.floor_le _
  have hkq1 : (A:ℚ)/B < ((A / B : ℤ) : ℚ) + 1 := by
    rw [← hkfloor]; exact Int.lt_floor_add_one _
  have hk0 : 0 ≤ A / B := Int.ediv_nonneg (by omega) (by omega)
  obtain ⟨hbl, hbr⟩ := qexp_correct n d hn hd hnb hdb
  rw [hval] at hbl hbr
  obtain ⟨hml', hmr'⟩ := roundFrac_m_close n d hn hd hnb hdb
  rw [hval] at hml' hmr'
  obtain ⟨hxl, hxr⟩ := roundFrac_x_range n d hn hd hnb hdb
  rw [hval] at hxl hxr
  obtain ⟨hm23, hm24⟩ := roundFrac_m_range n d hn hd hnb hdb
  have hF : floorF32 (roundFrac n d) =
      ⌊((roundFrac n d).m : ℚ) * 2 ^ (qexp n d - 23)⌋ := floorF32_roundFrac n d
  have hqA' : (A:ℚ)/B ≤ (A:ℚ) := div_le_self (le_of_lt hAq) (by exact_mod_cast hB1)
  have he24 : qexp n d ≤ 24 := by
    apply qexp_le_of_lt n d hn hd hnb hdb
    rw [hval]
    have h1 : (A:ℚ) ≤ (2:ℚ) ^ (24:ℤ) := by
      rw [zpow_int_lit 24 (by norm_num)]
      exact_mod_cast hA2
    have h2 : (2:ℚ) ^ (24:ℤ) < 2 ^ ((24:ℤ) + 1) := by
      rw [zpow_lt_zpow_iff_right₀ (by norm_num : (1:ℚ) < 2)]
      omega
    linarith
  rcases lt_or_le (qexp n d) 0 with heneg | henn
  · -- e < 0 : the quotient is below 1; both sides are 0
    have hq1 : (A:ℚ)/B < 1 := by
      have h1 : (2:ℚ) ^ (qexp n d + 1) ≤ 2 ^ (0:ℤ) := by
        rw [zpow_le_zpow_iff_right₀ (by norm_num : (1:ℚ) < 2)]
        omega
      rw [zpow_zero] at h1
      linarith
    have hk : A / B = 0 := by
      rw [← hkfloor, Int.floor_eq_zero_iff]
      exact ⟨le_of_lt hq0, hq1⟩
    have hmP : (roundFrac n d).m < 2 ^ (23 - qexp n d).toNat := by
      by_contra hcon
      push_neg at hcon
      have hmge : (2:ℚ) ^ (23 - qexp n d) ≤ ((roundFrac n d).m : ℚ) := by
        rw [zpow_int_lit (23 - qexp n d) (by omega)]
        exact_mod_cast hcon
      have hstep : (1 - (A:ℚ)/B) * 2 ^ (23 - qexp n d) ≤ 1/2 := by
        nlinarith [hmge, hmr']
      have hAB : A < B := by
        by_contra hx
        push_neg at hx
        have h1 : (1:ℚ) ≤ (A:ℚ)/B := by
          rw [le_div_iff₀ hBq]
          have h2 : (B:ℚ) ≤ (A:ℚ) := by exact_mod_cast hx
          linarith
        linarith
      have hq_low : (2:ℚ) ^ (-24 : ℤ) ≤ 1 - (A:ℚ)/B := by
        have h1 : 1 - (A:ℚ)/B = ((B - A : ℤ):ℚ)/B := by
          push_cast
          field_simp
        rw [h1]
        have h2 : (2:ℚ)^(-24:ℤ) = 1 / 2^(24:ℕ) := by
          rw [zpow_neg, ← zpow_natCast (2:ℚ) 24]
          norm_num
        rw [h2]
        apply div_le_div
        · exact_mod_cast (by omega : (0:ℤ) ≤ B - A)
        · exact_mod_cast (by omega : (1:ℤ) ≤ B - A)
        · exact hBq
        · exact_mod_cast hB2
      have hc1 : (2:ℚ)^(-24:ℤ) * 2^(23 - qexp n d) ≤ 1/2 := by
        calc (2:ℚ)^(-24:ℤ) * 2^(23 - qexp n d) ≤
            (1 - (A:ℚ)/B) * 2^(23 - qexp n d) := by
              apply mul_le_mul_of_nonneg_right hq_low
              positivity
        _ ≤ 1/2 := hstep
      have hc2 : (-24 : ℤ) + (23 - qexp n d) ≤ -1 := by
        have h3 : (2:ℚ)^((-24:ℤ) + (23 - qexp n d)) ≤ 2^(-1:ℤ) := by
          rw [zpow_add₀ (two_ne_zero : (2:ℚ) ≠ 0)]
          have h4 : (2:ℚ)^(-1:ℤ) = 1/2 := by
            rw [zpow_neg, zpow_one]
            norm_num
          rw [h4]
          exact hc1
        rw [zpow_le_zpow_iff_right₀ (by norm_num : (1:ℚ) < 2)] at h3
        exact h3
      omega
    have hVpos : (0:ℚ) ≤ ((roundFrac n d).m : ℚ) * 2 ^ (qexp n d - 23) := by
      have hm0 : (0:ℚ) ≤ ((roundFrac n d).m : ℚ) := by
        exact_mod_cast (by omega : (0:ℤ) ≤ (roundFrac n d).m)
      positivity
    have hVlt1 : ((roundFrac n d).m : ℚ) * 2 ^ (qexp n d - 23) < 1 := by
      have hmq : ((roundFrac n d).m : ℚ) < (2:ℚ) ^ (23 - qexp n d) := by
        rw [zpow_int_lit (23 - qexp n d) (by omega)]
        exact_mod_cast hmP
      have hppos : (0:ℚ) < (2:ℚ) ^ (qexp n d - 23) := by positivity
      calc ((roundFrac n d).m : ℚ) * 2 ^ (qexp n d - 23) <
          (2:ℚ) ^ (23 - qexp n d) * 2 ^ (qexp n d - 23) := by
            exact mul_lt_mul_of_pos_right hmq hppos
      _ = 1 := by
            rw [← zpow_add₀ (two_ne_zero : (2:ℚ) ≠ 0)]
            have h0 : (23 - qexp n d) + (qexp n d - 23) = 0 := by ring
            rw [h0, zpow_zero]
    have hF0 : floorF32 (roundFrac n d) = 0 := by
      rw [hF, Int.floor_eq_zero_iff]
      exact ⟨hVpos, hVlt1⟩
    rw [hF0, hk]
    rfl
  · -- 0 ≤ e ≤ 24
    rcases le_or_lt (qexp n d) 23 with he23 | hegt
    · -- 0 ≤ e ≤ 23
      have hKm : A / B * 2 ^ (23 - qexp n d).toNat ≤ (roundFrac n d).m := by
        by_contra hcon
        push_neg at hcon
        have hKq : ((A / B * 2 ^ (23 - qexp n d).toNat : ℤ) : ℚ) =
            ((A / B : ℤ) : ℚ) * 2 ^ ((23:ℤ) - qexp n d) := by
          push_cast
          rw [zpow_toNat_eq _ (by omega : (0:ℤ) ≤ 23 - qexp n d)]
        have hm1 : ((roundFrac n d).m : ℚ) ≤
            ((A / B : ℤ) : ℚ) * 2 ^ ((23:ℤ) - qexp n d) - 1 := by
          rw [← hKq]
          exact_mod_cast (by omega :
            (roundFrac n d).m ≤ A / B * 2 ^ (23 - qexp n d).toNat - 1)
        have hxK : ((A / B : ℤ) : ℚ) * 2 ^ ((23:ℤ) - qexp n d) ≤
            (A:ℚ)/B * 2 ^ ((23:ℤ) - qexp n d) := by
          apply mul_le_mul_of_nonneg_right hkq
          positivity
        linarith
      have hcancel0 : (2:ℚ) ^ ((23:ℤ) - qexp n d) * 2 ^ (qexp n d - 23) = 1 := by
        rw [← zpow_add₀ (two_ne_zero : (2:ℚ) ≠ 0)]
        have h0 : (23:ℤ) - qexp n d + (qexp n d - 23) = 0 := by ring
        rw [h0, zpow_zero]
      have hVk : ((A / B : ℤ) : ℚ) ≤ ((roundFrac n d).m : ℚ) * 2 ^ (qexp n d - 23) := by
        have hKq : ((A / B * 2 ^ (23 - qexp n d).toNat : ℤ) : ℚ) =
            ((A / B : ℤ) : ℚ) * 2 ^ ((23:ℤ) - qexp n d) := by
          push_cast
          rw [zpow_toNat_eq _ (by omega : (0:ℤ) ≤ 23 - qexp n d)]
        have h1 : ((A / B : ℤ) : ℚ) * 2 ^ ((23:ℤ) - qexp n d) ≤
            ((roundFrac n d).m : ℚ) := by
          rw [← hKq]
          exact_mod_cast hKm
        have hppos : (0:ℚ) ≤ (2:ℚ) ^ (qexp n d - 23) := by positivity
        have h2 := mul_le_mul_of_nonneg_right h1 hppos
        calc ((A / B : ℤ) : ℚ) =
            ((A / B : ℤ) : ℚ) * (2 ^ ((23:ℤ) - qexp n d) * 2 ^ (qexp n d - 23)) := by
              rw [hcancel0, mul_one]
        _ = ((A / B : ℤ) : ℚ) * 2 ^ ((23:ℤ) - qexp n d) * 2 ^ (qexp n d - 23) := by ring
        _ ≤ ((roundFrac n d).m : ℚ) * 2 ^ (qexp n d - 23) := h2
      have hFge : A / B ≤ floorF32 (roundFrac n d) := by
        rw [hF]
        exact Int.le_floor.mpr hVk
      rcases le_or_lt (A / B) 299 with hk299 | hk300
      · -- result below the cap: exact equality
        have hMm : (roundFrac n d).m ≤ (A / B + 1) * 2 ^ (23 - qexp n d).toNat - 1 := by
          by_contra hcon
          push_neg at hcon
          have hMle : (A / B + 1) * 2 ^ (23 - qexp n d).toNat ≤ (roundFrac n d).m := by
            omega
          have hMq : (((A / B + 1) * 2 ^ (23 - qexp n d).toNat : ℤ) : ℚ) =
              (((A / B : ℤ) : ℚ) + 1) * 2 ^ ((23:ℤ) - qexp n d) := by
            push_cast
            rw [zpow_toNat_eq _ (by omega : (0:ℤ) ≤ 23 - qexp n d)]
          have hMler : (((A / B : ℤ) : ℚ) + 1) * 2 ^ ((23:ℤ) - qexp n d) ≤
              ((roundFrac n d).m : ℚ) := by
            rw [← hMq]
            exact_mod_cast hMle
          have hdelta : ((((A / B : ℤ) : ℚ) + 1) - (A:ℚ)/B) *
              2 ^ ((23:ℤ) - qexp n d) ≤ 1/2 := by
            nlinarith [hmr', hMler]
          have hAlt : A < (A / B + 1) * B := by
            have h1 : (A:ℚ) < (((A / B : ℤ) : ℚ) + 1) * B := by
              rw [div_lt_iff₀ hBq] at hkq1
              linarith
            exact_mod_cast h1
          have hc1 : 1 ≤ (A / B + 1) * B - A := by omega
          have hcid : (((A / B : ℤ) : ℚ) + 1) - (A:ℚ)/B =
              (((A / B + 1) * B - A : ℤ) : ℚ) / B := by
            push_cast
            field_simp
          have h24exp : (2:ℚ) ^ ((24:ℤ) - qexp n d) = 2 ^ ((23:ℤ) - qexp n d) * 2 := by
            have he : (24:ℤ) - qexp n d = (23 - qexp n d) + 1 := by ring
            rw [he, zpow_add₀ (two_ne_zero : (2:ℚ) ≠ 0), zpow_one]
          have hc2q : (((A / B + 1) * B - A : ℤ) : ℚ) *
              2 ^ ((24:ℤ) - qexp n d) ≤ (B:ℚ) := by
            rw [hcid] at hdelta
            rw [div_mul_eq_mul_div, div_le_iff₀ hBq] at hdelta
            rw [h24exp, ← mul_assoc]
            nlinarith [hdelta]
          have hc2 : ((A / B + 1) * B - A) * 2 ^ (24 - qexp n d).toNat ≤ B := by
            have hcast : ((((A / B + 1) * B - A) * 2 ^ (24 - qexp n d).toNat : ℤ) : ℚ) =
                (((A / B + 1) * B - A : ℤ) : ℚ) * 2 ^ ((24:ℤ) - qexp n d) := by
              push_cast
              rw [zpow_toNat_eq _ (by omega : (0:ℤ) ≤ 24 - qexp n d)]
            have h1 : ((((A / B + 1) * B - A) * 2 ^ (24 - qexp n d).toNat : ℤ) : ℚ) ≤ (B:ℚ) := by
              rw [hcast]
              exact hc2q
            exact_mod_cast h1
          have hP0 : (0:ℤ) < 2 ^ (24 - qexp n d).toNat := by positivity
          have hPB : (2:ℤ) ^ (24 - qexp n d).toNat ≤ B := by
            have h1 : (2:ℤ) ^ (24 - qexp n d).toNat ≤
                ((A / B + 1) * B - A) * 2 ^ (24 - qexp n d).toNat := by
              calc (2:ℤ) ^ (24 - qexp n d).toNat =
                  1 * 2 ^ (24 - qexp n d).toNat := (one_mul _).symm
              _ ≤ ((A / B + 1) * B - A) * 2 ^ (24 - qexp n d).toNat := by
                    apply mul_le_mul_of_nonneg_right hc1
                    omega
            omega
          have hBA : B * 2 ^ (qexp n d).toNat ≤ A := by
            have h1 : (2:ℚ) ^ (qexp n d) * B ≤ A := by
              rw [le_div_iff₀ hBq] at hbl
              linarith
            have h2 : (((2:ℤ) ^ (qexp n d).toNat : ℤ) : ℚ) * B ≤ A := by
              rw [← zpow_int_lit (qexp n d) henn]
              exact h1
            have h3 : ((B * 2 ^ (qexp n d).toNat : ℤ) : ℚ) ≤ (A:ℚ) := by
              push_cast
              push_cast at h2
              linarith
            exact_mod_cast h3
          have hPpow : (2:ℤ) ^ (24 - qexp n d).toNat * 2 ^ (qexp n d).toNat = 2 ^ 24 := by
            rw [← pow_add]
            congr 1
            omega
          have hA24 : A = 2 ^ 24 := by
            have h1 : (2:ℤ) ^ 24 ≤ B * 2 ^ (qexp n d).toNat := by
              calc (2:ℤ) ^ 24 = 2 ^ (24 - qexp n d).toNat * 2 ^ (qexp n d).toNat :=
                    hPpow.symm
              _ ≤ B * 2 ^ (qexp n d).toNat := by
                    apply mul_le_mul_of_nonneg_right hPB
                    positivity
            omega
          have hBP : B = 2 ^ (24 - qexp n d).toNat := by
            have h1 : B * 2 ^ (qexp n d).toNat ≤
                2 ^ (24 - qexp n d).toNat * 2 ^ (qexp n d).toNat := by
              rw [hPpow]
              omega
            have h2 : B ≤ 2 ^ (24 - qexp n d).toNat :=
              le_of_mul_le_mul_right h1 (by positivity)
            omega
          have hcEq1 : (A / B + 1) * B - A = 1 := by
            have h1 : ((A / B + 1) * B - A) * 2 ^ (24 - qexp n d).toNat ≤
                2 ^ (24 - qexp n d).toNat :=
              le_trans hc2 (le_of_eq hBP)
            by_contra hne
            have h2c : 2 ≤ (A / B + 1) * B - A := by omega
            have h2 : 2 * 2 ^ (24 - qexp n d).toNat ≤
                ((A / B + 1) * B - A) * 2 ^ (24 - qexp n d).toNat := by
              apply mul_le_mul_of_nonneg_right h2c
              omega
            omega
          have hfin : (A / B + 1) * 2 ^ (24 - qexp n d).toNat = 2 ^ 24 + 1 := by
            rw [← hBP, ← hA24]
            omega
          have hdvd : (2:ℤ) ∣ (A / B + 1) * 2 ^ (24 - qexp n d).toNat :=
            Dvd.dvd.mul_left (dvd_pow_self 2 (by omega : (24 - qexp n d).toNat ≠ 0)) _
          rw [hfin] at hdvd
          norm_num at hdvd
        have hVk1 : ((roundFrac n d).m : ℚ) * 2 ^ (qexp n d - 23) <
            ((A / B : ℤ) : ℚ) + 1 := by
          have hq : (((A / B + 1) * 2 ^ (23 - qexp n d).toNat - 1 : ℤ) : ℚ) =
              (((A / B : ℤ) : ℚ) + 1) * 2 ^ ((23:ℤ) - qexp n d) - 1 := by
            push_cast
            rw [zpow_toNat_eq _ (by omega : (0:ℤ) ≤ 23 - qexp n d)]
          have hmle : ((roundFrac n d).m : ℚ) ≤
              (((A / B : ℤ) : ℚ) + 1) * 2 ^ ((23:ℤ) - qexp n d) - 1 := by
            rw [← hq]
            exact_mod_cast hMm
          have hppos : (0:ℚ) ≤ (2:ℚ) ^ (qexp n d - 23) := by positivity
          have h2 := mul_le_mul_of_nonneg_right hmle hppos
          have hcancel : ((((A / B : ℤ) : ℚ) + 1) * 2 ^ ((23:ℤ) - qexp n d) - 1) *
              2 ^ (qexp n d - 23) =
              (((A / B : ℤ) : ℚ) + 1) - 2 ^ (qexp n d - 23) := by
            rw [sub_mul, one_mul, mul_assoc, hcancel0, mul_one]
          rw [hcancel] at h2
          have hpos2 : (0:ℚ) < (2:ℚ) ^ (qexp n d - 23) := by positivity
          linarith
        have hFeq : floorF32 (roundFrac n d) = A / B := by
          rw [hF]
          have h1 : A / B ≤ ⌊((roundFrac n d).m : ℚ) * 2 ^ (qexp n d - 23)⌋ :=
            Int.le_floor.mpr hVk
          have h2 : ⌊((roundFrac n d).m : ℚ) * 2 ^ (qexp n d - 23)⌋ < A / B + 1 := by
            rw [Int.floor_lt]
            push_cast
            push_cast at hVk1
            linarith
          omega
        rw [hFeq, u32ofInt_small (A / B) hk0 (by
          have h25 : (2:ℤ) ^ 25 = 33554432 := by norm_num
          omega)]
      · -- k ≥ 300: both sides cap at 300
        have h2e : (2:ℚ) ^ (qexp n d - 23) ≤ 1 := by
          calc (2:ℚ) ^ (qexp n d - 23) ≤ 2 ^ (0:ℤ) := by
                rw [zpow_le_zpow_iff_right₀ (by norm_num : (1:ℚ) < 2)]
                omega
          _ = 1 := zpow_zero 2
        have hm0 : (0:ℚ) ≤ ((roundFrac n d).m : ℚ) := by
          exact_mod_cast (by omega : (0:ℤ) ≤ (roundFrac n d).m)
        have hm24' : ((roundFrac n d).m : ℚ) ≤ ((2 ^ 24 : ℤ) : ℚ) := by
          exact_mod_cast hm24
        have hVle : ((roundFrac n d).m : ℚ) * 2 ^ (qexp n d - 23) ≤ ((2 ^ 24 : ℤ) : ℚ) := by
          calc ((roundFrac n d).m : ℚ) * 2 ^ (qexp n d - 23) ≤
              ((roundFrac n d).m : ℚ) * 1 := by
                apply mul_le_mul_of_nonneg_left h2e hm0
          _ = ((roundFrac n d).m : ℚ) := mul_one _
          _ ≤ ((2 ^ 24 : ℤ) : ℚ) := hm24'
        have hFle : floorF32 (roundFrac n d) ≤ 2 ^ 24 := by
          rw [hF]
          calc ⌊((roundFrac n d).m : ℚ) * 2 ^ (qexp n d - 23)⌋ ≤ ⌊((2 ^ 24 : ℤ) : ℚ)⌋ :=
                Int.floor_le_floor hVle
          _ = 2 ^ 24 := Int.floor_intCast _
        rw [u32ofInt_small _ (by omega) (by
          have h25 : (2:ℤ) ^ 25 = 33554432 := by norm_num
          have h24 : (2:ℤ) ^ 24 = 16777216 := by norm_num
          omega)]
        have h1 : 300 ≤ (floorF32 (roundFrac n d)).toNat := by omega
        have h2 : 300 ≤ (A / B).toNat := by omega
        omega
    · -- e = 24: the quotient is exactly 2^24; both sides cap at 300
      have he24'' : qexp n d = 24 := by omega
      have hq24 : (A:ℚ)/B = ((2 ^ 24 : ℤ) : ℚ) := by
        apply le_antisymm
        · calc (A:ℚ)/B ≤ (A:ℚ) := hqA'
          _ ≤ ((2 ^ 24 : ℤ) : ℚ) := by exact_mod_cast hA2
        · have h1 := hbl
          rw [he24''] at h1
          have ht : ((24:ℤ)).toNat = 24 := rfl
          rw [zpow_int_lit 24 (by norm_num), ht] at h1
          exact h1
      have hk24 : A / B = 2 ^ 24 := by
        rw [← hkfloor, hq24, Int.floor_intCast]
      have hx24 : (A:ℚ)/B * 2 ^ ((23:ℤ) - qexp n d) = ((2 ^ 23 : ℤ) : ℚ) := by
        rw [he24'', hq24]
        have hexp : (23:ℤ) - 24 = -1 := by norm_num
        rw [hexp, zpow_neg, zpow_one]
        push_cast
        norm_num
      rw [hx24] at hml' hmr'
      have hmEq : (roundFrac n d).m = 2 ^ 23 := by
        have h3 : (roundFrac n d).m ≤ 2 ^ 23 := by
          by_contra hc
          push_neg at hc
          have h4 : ((2 ^ 23 + 1 : ℤ) : ℚ) ≤ ((roundFrac n d).m : ℚ) := by
            exact_mod_cast hc
          push_cast at h4 hmr'
          linarith
        omega
      have hF24 : floorF32 (roundFrac n d) = 2 ^ 24 := by
        rw [hF, hmEq, he24'']
        have hexp : (24:ℤ) - 23 = 1 := by norm_num
        rw [hexp, zpow_one]
        have hc : ((2 ^ 23 : ℤ) : ℚ) * 2 = ((2 ^ 24 : ℤ) : ℚ) := by
          push_cast
          ring
        rw [hc, Int.floor_intCast]
      rw [hF24, hk24, u32ofInt_small _ (by norm_num) (by norm_num)]

theorem toNat_ediv (a b : ℤ) (ha : 0 ≤ a) (hb : 0 ≤ b) :
    (a / b).toNat = a.toNat / b.toNat := by
  rcases eq_or_lt_of_le hb with hb0 | hbpos
  · rw [← hb0]
    simp
  · have hq := Int.ediv_add_emod a b
    have hr0 : 0 ≤ a % b := Int.emod_nonneg a (by omega)
    have hrb : a % b < b := Int.emod_lt_of_pos a hbpos
    have hq0 : 0 ≤ a / b := Int.ediv_nonneg ha (by omega)
    have hprod : ((b.toNat * (a / b).toNat : ℕ) : ℤ) = b * (a / b) := by
      push_cast
      rw [Int.toNat_of_nonneg hb, Int.toNat_of_nonneg hq0]
    have hnat : a.toNat = b.toNat * (a / b).toNat + (a % b).toNat := by omega
    have hlt : (a % b).toNat < b.toNat := by omega
    rw [hnat, Nat.mul_add_div (by omega)]
    have h0 : (a % b).toNat / b.toNat = 0 := Nat.div_eq_of_lt hlt
    omega

theorem u32ofInt_neg (z : ℤ) (h : z < 0) : u32ofInt z = 0 := by
  unfold u32ofInt
  have h32 : (2:ℤ) ^ 32 - 1 = 4294967295 := by norm_num
  omega

theorem divF32_correct (A B : ℤ) (hA1 : 1 ≤ A) (hA2 : A ≤ 2 ^ 24)
    (hB1 : 1 ≤ B) (hB2 : B ≤ 2 ^ 24) :
    min (u32ofInt (floorF32 (divF32 (roundInt A) (roundInt B)))) 300 =
      min (A / B).toNat 300 := by
  obtain ⟨hva, hma1, hma2, hea1, hea2⟩ := roundInt_spec A hA1 hA2
  obtain ⟨hvb, hmb1, hmb2, heb1, heb2⟩ := roundInt_spec B hB1 hB2
  have hBq : (0:ℚ) < (B:ℚ) := by exact_mod_cast (by omega : (0:ℤ) < B)
  have hbm0 : (0:ℚ) < ((roundInt B).m : ℚ) := by
    exact_mod_cast (by omega : (0:ℤ) < (roundInt B).m)
  have hexpand : ∀ u v : ℤ, u - v + v = u := by intro u v; ring
  simp only [divF32]
  rw [if_neg (by omega : ¬ (roundInt B).m ≤ 0)]
  rcases le_or_lt 0 ((roundInt A).e - (roundInt B).e) with hs | hs
  · simp only [if_pos hs]
    have htle : ((roundInt A).e - (roundInt B).e).toNat ≤ 24 := by omega
    have hn1 : 1 ≤ (roundInt A).m * 2 ^ ((roundInt A).e - (roundInt B).e).toNat := by
      have hp : (0:ℤ) < 2 ^ ((roundInt A).e - (roundInt B).e).toNat := by positivity
      nlinarith
    rw [if_neg (by omega), if_neg (by omega)]
    apply main_round A B _ _ hA1 hA2 hB1 hB2 hn1 (by omega)
    · -- n bound
      have hp : (2:ℤ) ^ ((roundInt A).e - (roundInt B).e).toNat ≤ 2 ^ 24 :=
        pow_le_pow_right₀ (by norm_num) htle
      have h48 : (2:ℤ) ^ 24 * 2 ^ 24 ≤ 2 ^ 250 := by norm_num
      nlinarith
    · -- d bound
      have : (2:ℤ) ^ 24 ≤ 2 ^ 250 := by norm_num
      omega
    · -- value equality
      push_cast
      rw [zpow_toNat_eq _ hs]
      rw [div_eq_div_iff hbm0.ne' hBq.ne']
      rw [← hva, ← hvb]
      have hcomb : (2:ℚ) ^ ((roundInt A).e - (roundInt B).e) * 2 ^ (roundInt B).e =
          2 ^ (roundInt A).e := by
        rw [← zpow_add₀ (two_ne_zero : (2:ℚ) ≠ 0), hexpand]
      calc ((roundInt A).m : ℚ) * 2 ^ ((roundInt A).e - (roundInt B).e) *
            (((roundInt B).m : ℚ) * 2 ^ (roundInt B).e) =
          ((roundInt A).m : ℚ) *
            (2 ^ ((roundInt A).e - (roundInt B).e) * 2 ^ (roundInt B).e) *
            ((roundInt B).m : ℚ) := by ring
      _ = ((roundInt A).m : ℚ) * 2 ^ (roundInt A).e * ((roundInt B).m : ℚ) := by
            rw [hcomb]
      _ = F32.val (roundInt A) * ((roundInt B).m : ℚ) := by
            unfold F32.val
            ring
  · simp only [if_neg (not_le.mpr hs)]
    have htle : (-((roundInt A).e - (roundInt B).e)).toNat ≤ 24 := by omega
    have hd1 : 1 ≤ (roundInt B).m * 2 ^ (-((roundInt A).e - (roundInt B).e)).toNat := by
      have hp : (0:ℤ) < 2 ^ (-((roundInt A).e - (roundInt B).e)).toNat := by positivity
      nlinarith
    rw [if_neg (by omega), if_neg (by omega)]
    apply main_round A B _ _ hA1 hA2 hB1 hB2 (by omega) hd1
    · -- n bound
      have : (2:ℤ) ^ 24 ≤ 2 ^ 250 := by norm_num
      omega
    · -- d bound
      have hp : (2:ℤ) ^ (-((roundInt A).e - (roundInt B).e)).toNat ≤ 2 ^ 24 :=
        pow_le_pow_right₀ (by norm_num) htle
      have h48 : (2:ℤ) ^ 24 * 2 ^ 24 ≤ 2 ^ 250 := by norm_num
      nlinarith
    · -- value equality
      push_cast
      rw [zpow_toNat_eq _ (by omega : (0:ℤ) ≤ -((roundInt A).e - (roundInt B).e))]
      have hdne : ((roundInt B).m : ℚ) * 2 ^ (-((roundInt A).e - (roundInt B).e)) ≠ 0 := by
        apply mul_ne_zero hbm0.ne'
        positivity
      rw [div_eq_div_iff hdne hBq.ne']
      rw [← hva, ← hvb]
      have hcomb : (2:ℚ) ^ (-((roundInt A).e - (roundInt B).e)) * 2 ^ (roundInt A).e =
          2 ^ (roundInt B).e := by
        rw [← zpow_add₀ (two_ne_zero : (2:ℚ) ≠ 0)]
        have he : -((roundInt A).e - (roundInt B).e) + (roundInt A).e = (roundInt B).e := by
          ring
        rw [he]
      calc ((roundInt A).m : ℚ) * (((roundInt B).m : ℚ) * 2 ^ (roundInt B).e) =
          ((roundInt A).m : ℚ) * ((roundInt B).m : ℚ) * 2 ^ (roundInt B).e := by ring
      _ = ((roundInt A).m : ℚ) * ((roundInt B).m : ℚ) *
            (2 ^ (-((roundInt A).e - (roundInt B).e)) * 2 ^ (roundInt A).e) := by
            rw [hcomb]
      _ = ((roundInt A).m : ℚ) * 2 ^ (roundInt A).e *
            (((roundInt B).m : ℚ) * 2 ^ (-((roundInt A).e - (roundInt B).e))) := by ring
      _ = F32.val (roundInt A) * (((roundInt B).m : ℚ) *
            2 ^ (-((roundInt A).e - (roundInt B).e))) := by
            unfold F32.val
            rfl

theorem floorF32_neg_m (x : F32) (h : x.m < 0) : floorF32 x < 0 := by
  unfold floorF32
  split_ifs with hc
  · exact mul_neg_of_neg_of_pos h (by positivity)
  · exact Int.ediv_neg' h (by positivity)

theorem divF32_neg_aux (a b : F32) (ham1 : -(2 ^ 24) ≤ a.m) (ham2 : a.m ≤ -1)
    (hae1 : -23 ≤ a.e) (hae2 : a.e ≤ 8)
    (hbm1 : 1 ≤ b.m) (hbm2 : b.m ≤ 2 ^ 24) (hbe1 : -23 ≤ b.e) (hbe2 : b.e ≤ 1) :
    floorF32 (divF32 a b) < 0 := by
  simp only [divF32]
  rw [if_neg (by omega : ¬ b.m ≤ 0)]
  rcases le_or_lt 0 (a.e - b.e) with hs | hs
  · simp only [if_pos hs]
    have ht : (a.e - b.e).toNat ≤ 31 := by omega
    have hp0 : (0:ℤ) < 2 ^ (a.e - b.e).toNat := by positivity
    have hp31 : (2:ℤ) ^ (a.e - b.e).toNat ≤ 2 ^ 31 :=
      pow_le_pow_right₀ (by norm_num) ht
    have hn : a.m * 2 ^ (a.e - b.e).toNat < 0 :=
      mul_neg_of_neg_of_pos (by omega) hp0
    rw [if_pos hn]
    apply floorF32_neg_m
    show -(roundFrac (-(a.m * 2 ^ (a.e - b.e).toNat)) b.m).m < 0
    have hm1 : 1 ≤ -(a.m * 2 ^ (a.e - b.e).toNat) := by nlinarith
    have hmb : -(a.m * 2 ^ (a.e - b.e).toNat) ≤ 2 ^ 250 := by
      have h55 : (2:ℤ) ^ 24 * 2 ^ 31 ≤ 2 ^ 250 := by norm_num
      nlinarith
    obtain ⟨hg1, _⟩ := roundFrac_m_range _ _ hm1 hbm1 hmb (by
      have h24 : (2:ℤ) ^ 24 ≤ 2 ^ 250 := by norm_num
      omega)
    omega
  · simp only [if_neg (not_le.mpr hs)]
    rw [if_pos (by omega : a.m < 0)]
    apply floorF32_neg_m
    show -(roundFrac (-a.m) (b.m * 2 ^ (-(a.e - b.e)).toNat)).m < 0
    have ht : (-(a.e - b.e)).toNat ≤ 24 := by omega
    have hp0 : (0:ℤ) < 2 ^ (-(a.e - b.e)).toNat := by positivity
    have hp24 : (2:ℤ) ^ (-(a.e - b.e)).toNat ≤ 2 ^ 24 :=
      pow_le_pow_right₀ (by norm_num) ht
    have hd1 : 1 ≤ b.m * 2 ^ (-(a.e - b.e)).toNat := by nlinarith
    have hdb : b.m * 2 ^ (-(a.e - b.e)).toNat ≤ 2 ^ 250 := by
      have h48 : (2:ℤ) ^ 24 * 2 ^ 24 ≤ 2 ^ 250 := by norm_num
      nlinarith
    obtain ⟨hg1, _⟩ := roundFrac_m_range _ _ (by omega : 1 ≤ -a.m) hd1 (by
      have h24 : (2:ℤ) ^ 24 ≤ 2 ^ 250 := by norm_num
      omega) hdb
    omega

theorem divF32_neg (A B : ℤ) (hAl : -(2 ^ 31) ≤ A) (hAr : A ≤ -1)
    (hB1 : 1 ≤ B) (hB2 : B ≤ 2 ^ 24) :
    floorF32 (divF32 (roundInt A) (roundInt B)) < 0 := by
  obtain ⟨hvb, hmb1, hmb2, heb1, heb2⟩ := roundInt_spec B hB1 hB2
  have hnA1 : 1 ≤ -A := by omega
  have hnAb : -A ≤ 2 ^ 250 := by
    have h31' : (2:ℤ) ^ 31 ≤ 2 ^ 250 := by norm_num
    omega
  obtain ⟨hfm1, hfm2⟩ := roundFrac_m_range (-A) 1 hnA1 (by norm_num) hnAb (by norm_num)
  have hfe : (roundFrac (-A) 1).e = qexp (-A) 1 - 23 := roundFrac_e _ _
  have hqe0 : 0 ≤ qexp (-A) 1 := qexp_nonneg_of_le _ _ (by omega)
  have hqe31 : qexp (-A) 1 ≤ 31 := by
    apply qexp_le_of_lt (-A) 1 hnA1 (by norm_num) hnAb (by norm_num)
    have hdiv1 : ((-A : ℤ) : ℚ) / ((1:ℤ):ℚ) = ((-A : ℤ):ℚ) := by norm_num
    rw [hdiv1]
    have h1 : ((-A : ℤ):ℚ) ≤ (2:ℚ) ^ (31:ℤ) := by
      rw [zpow_int_lit 31 (by norm_num)]
      have ht31 : ((31:ℤ)).toNat = 31 := rfl
      rw [ht31]
      exact_mod_cast (by omega : -A ≤ (2:ℤ) ^ 31)
    have h2 : (2:ℚ) ^ (31:ℤ) < 2 ^ ((31:ℤ) + 1) := by
      rw [zpow_lt_zpow_iff_right₀ (by norm_num : (1:ℚ) < 2)]
      omega
    linarith
  have hA : roundInt A = ⟨-(roundFrac (-A) 1).m, (roundFrac (-A) 1).e⟩ := by
    unfold roundInt
    rw [if_pos (by omega : A < 0)]
  rw [hA]
  apply divF32_neg_aux
  · show -(2 ^ 24) ≤ -(roundFrac (-A) 1).m
    omega
  · show -(roundFrac (-A) 1).m ≤ -1
    omega
  · show -23 ≤ (roundFrac (-A) 1).e
    omega
  · show (roundFrac (-A) 1).e ≤ 8
    omega
  · omega
  · omega
  · omega
  · omega

theorem floorF32_divF32_zero (B : ℤ) (hB1 : 1 ≤ B) (hB2 : B ≤ 2 ^ 24) :
    floorF32 (divF32 (roundInt 0) (roundInt B)) = 0 := by
  obtain ⟨_, hmb1, _, _, _⟩ := roundInt_spec B hB1 hB2
  have h0 : roundInt 0 = ⟨0, 0⟩ := by
    unfold roundInt
    norm_num
  rw [h0]
  simp only [divF32, show ((⟨0, 0⟩ : F32)).m = 0 from rfl,
    show ((⟨0, 0⟩ : F32)).e = 0 from rfl]
  rw [if_neg (by omega : ¬ (roundInt B).m ≤ 0)]
  rcases le_or_lt 0 ((0:ℤ) - (roundInt B).e) with hs | hs
  · simp only [if_pos hs, zero_mul]
    rw [if_pos trivial, if_neg (lt_irrefl (0:ℤ))]
    decide
  · simp only [if_neg (not_le.mpr hs)]
    rw [if_pos trivial, if_neg (lt_irrefl (0:ℤ))]
    decide

theorem calc_pool_size_eq_spec (db : ℤ) (num res : ℕ)
    (h0 : 0 ≤ db) (h1 : db < 2 ^ 31) (h2 : 1 ≤ num) (h3 : num ≤ 2 ^ 24)
    (h4 : res < 2 ^ 31) (h5 : db - (res : ℤ) ≤ 2 ^ 24) :
    calculate_optimal_pool_size db num res = computeSizeSpec db num res := by
  have hres : u32toi32 res = (res : ℤ) := by
    unfold u32toi32
    rw [if_pos h4]
  have havail : i32satSub db (u32toi32 res) = db - (res : ℤ) := by
    rw [hres]
    unfold i32satSub
    have c1 : (2:ℤ) ^ 31 = 2147483648 := by norm_num
    have c2 : ((2 ^ 31 : ℕ) : ℤ) = 2147483648 := by norm_num
    omega
  have hB1 : 1 ≤ (num : ℤ) := by exact_mod_cast h2
  have hB2 : (num : ℤ) ≤ 2 ^ 24 := by exact_mod_cast h3
  simp only [calculate_optimal_pool_size, MAX_POOL_SIZE, computeSizeSpec]
  rw [havail]
  rcases lt_trichotomy (db - (res:ℤ)) 0 with hneg | hzero | hpos
  · have hlhs := divF32_neg (db - (res:ℤ)) num (by
      have c2 : ((2 ^ 31 : ℕ) : ℤ) = 2147483648 := by norm_num
      have c1 : (2:ℤ) ^ 31 = 2147483648 := by norm_num
      omega) (by omega) hB1 hB2
    rw [u32ofInt_neg _ hlhs]
    have hmax : max 0 (db - (res:ℤ)) = 0 := by omega
    rw [hmax]
    simp
  · rw [hzero, floorF32_divF32_zero num hB1 hB2]
    simp [u32ofInt]
  · rw [divF32_correct (db - (res:ℤ)) num (by omega) h5 hB1 hB2]
    have hmax : max 0 (db - (res:ℤ)) = db - (res:ℤ) := by omega
    rw [hmax, toNat_ediv _ _ (by omega) (by omega), Int.toNat_natCast]

theorem pool_size_counterexample :
    calculate_optimal_pool_size 200000009 100000000 10 = 2 ∧
    computeSizeSpec 200000009 100000000 10 = 1 := by
  constructor <;> decide

end Renewabl
namespace Renewabl

/-- C1: as stated, the claim is false on the code: the source computes the
per-instance share in `f32`, and for large operands the float rounding
diverges from the exact formula.  At `storeMax = 200000009`,
`instances = 100000000`, `reserved = 10` the code rounds
`199999999 as f32` up to `200000000`, divides exactly to `2.0` and returns
`2`, while `min(floor(max(0, storeMax-reserved)/instances), 300) = 1`. -/
theorem c1_pool_sizer_counterexample :
    calculate_optimal_pool_size 200000009 100000000 10 = 2 ∧
    computeSizeSpec 200000009 100000000 10 = 1 ∧
    calculate_optimal_pool_size 200000009 100000000 10 ≠
      computeSizeSpec 200000009 100000000 10 := by
  refine ⟨by decide, by decide, by decide⟩

/-- C1 (amended): for every `storeMaxConnections` in `[0, 2^31)`,
`instanceCount` in `[1, 2^24]` and `reservedForAdmin` in `[0, 2^31)` with
`storeMaxConnections - reservedForAdmin ≤ 2^24` (the range in which the
`f32` arithmetic of the source is exact enough), `calculate_optimal_pool_size`
returns exactly `min(floor(max(0, storeMax - reserved) / instances), 300)`;
in particular the three spec examples hold (see the witness). -/
theorem c1_pool_sizer_amended (db : ℤ) (num res : ℕ)
    (h0 : 0 ≤ db) (h1 : db < 2 ^ 31) (h2 : 1 ≤ num) (h3 : num ≤ 2 ^ 24)
    (h4 : res < 2 ^ 31) (h5 : db - (res : ℤ) ≤ 2 ^ 24) :
    calculate_optimal_pool_size db num res = computeSizeSpec db num res :=
  calc_pool_size_eq_spec db num res h0 h1 h2 h3 h4 h5

/-- Witness for C1 (amended): the three spec examples, each obtained by
instantiating the amended theorem at the concrete input. -/
theorem c1_pool_sizer_amended_witness :
    calculate_optimal_pool_size 100 1 10 = 90 ∧
    calculate_optimal_pool_size 20 4 10 = 2 ∧
    calculate_optimal_pool_size 5 1 10 = 0 := by
  refine ⟨?_, ?_, ?_⟩
  · rw [c1_pool_sizer_amended 100 1 10 (by norm_num) (by norm_num) (by norm_num)
      (by norm_num) (by norm_num) (by norm_num)]
    decide
  · rw [c1_pool_sizer_amended 20 4 10 (by norm_num) (by norm_num) (by norm_num)
      (by norm_num) (by norm_num) (by norm_num)]
    decide
  · rw [c1_pool_sizer_amended 5 1 10 (by norm_num) (by norm_num) (by norm_num)
      (by norm_num) (by norm_num) (by norm_num)]
    decide

end Renewabl

namespace Renewabl

/-! ## ResourcePool and ScopedExecutor (libs/postgres_models/src/connection.rs)

The bb8 pool (external collaborator) is modelled by its observable counter
state; `with_connection` / `with_transaction` are embedded with explicit
state passing, the operation's outcome supplied by the caller. -/

/-- Snapshot state of a bb8 connection pool: configured maximum, number of
open connections, and how many of those are idle (`Pool::state()`). -/
structure PoolState where
  maxSize : ℕ
  total : ℕ
  idle : ℕ
deriving DecidableEq

/-- Model of `bb8::Pool::get_owned` (external library): hand out an idle
connection when one exists; otherwise open a fresh connection when below
the configured maximum (`connectOk` is the oracle for the store accepting
the new connection); otherwise fail with an acquisition timeout. -/
def acquire (connectOk : Bool) (s : PoolState) : Option PoolState :=
  if 0 < s.idle then some { s with idle := s.idle - 1 }
  else if s.total < s.maxSize then
    if connectOk then some { s with total := s.total + 1 } else none
  else none

/-- A `PooledConnection` being dropped: the connection returns to the
pool's idle set (bb8 external behaviour, relied on by `with_connection`). -/
def release (s : PoolState) : PoolState :=
  { s with idle := s.idle + 1 }

/-- `WithConnectionError` (connection.rs lines 259-265): either a pool
acquisition failure or the operation's own error. -/
inductive WithConnectionError (E : Type) where
  | pool : WithConnectionError E
  | operation : E → WithConnectionError E
deriving DecidableEq

/-- `with_connection` (connection.rs lines 219-256) with the operation's
effect on an external state `S` made explicit: acquire one connection, run
the operation, and return the connection to the pool when the operation
completes — on the success and the error path alike.  When acquisition
fails, the operation never runs and nothing is checked out. -/
def with_connectionS {S T E : Type} (connectOk : Bool) (ps : PoolState) (σ : S)
    (op : S → Except E T × S) :
    Except (WithConnectionError E) T × PoolState × S :=
  match acquire connectOk ps with
  | none => (Except.error WithConnectionError.pool, ps, σ)
  | some ps' =>
      match op σ with
      | (Except.ok v, σ') => (Except.ok v, release ps', σ')
      | (Except.error e, σ') =>
          (Except.error (WithConnectionError.operation e), release ps', σ')

/-- `with_connection` for an operation with no modelled external state:
the common form used by the handlers. -/
def with_connection {T E : Type} (connectOk : Bool) (ps : PoolState)
    (op : Except E T) : Except (WithConnectionError E) T × PoolState :=
  let r := with_connectionS connectOk ps () (fun u => (op, u))
  (r.1, r.2.1)

/-- `conn.transaction` (diesel, external collaborator): run the operation
against the store; keep its writes on success, roll all of them back on
error, surfacing the original error. -/
def runTransaction {S T E : Type} (op : S → Except E (T × S)) (σ : S) :
    Except E T × S :=
  match op σ with
  | Except.ok (v, σ') => (Except.ok v, σ')
  | Except.error e => (Except.error e, σ)

/-- `with_transaction` (connection.rs lines 334-369): `with_connection`
wrapping the operation in a single atomic transaction on the acquired
connection. -/
def with_transaction {S T E : Type} (connectOk : Bool) (ps : PoolState) (σ : S)
    (op : S → Except E (T × S)) :
    Except (WithConnectionError E) T × PoolState × S :=
  with_connectionS connectOk ps σ (runTransaction op)

/-- Fold a sequence of completed `with_connection` calls (each given by its
connect oracle and operation outcome) over the pool state. -/
def runCalls {T E : Type} : List (Bool × Except E T) → PoolState → PoolState
  | [], s => s
  | c :: cs, s => runCalls cs (with_connection c.1 s c.2).2

/-! ## ShutdownCoordinator (services/api/server/src/shutdown.rs) -/

/-- `ShutdownInner` (shutdown.rs lines 14-17): the owned pool references. -/
structure ShutdownInner where
  db_pool : PoolState
  redis_pool : PoolState
deriving DecidableEq

/-- `ShutdownCoordinator` state (shutdown.rs lines 8-12): the
`shutting_down` flag and the mutex-guarded take-once pool set. -/
structure CoordState where
  shutting_down : Bool
  inner : Option ShutdownInner
deriving DecidableEq

/-- `ShutdownCoordinator::new` (shutdown.rs lines 19-32). -/
def CoordState.new (db redis : PoolState) : CoordState :=
  { shutting_down := false, inner := some ⟨db, redis⟩ }

/-- `ShutdownCoordinator::shutdown` (shutdown.rs lines 42-104): set the
flag, take the inner pool set; when it was already taken, log and return
(no error, nothing drained).  Returns the taken set — the pools the drain
sequence runs on — alongside the new state. -/
def CoordState.shutdown (c : CoordState) : CoordState × Option ShutdownInner :=
  match c.inner with
  | none => ({ c with shutting_down := true }, none)
  | some inner => ({ shutting_down := true, inner := none }, some inner)

/-- A sequence of `n` shutdown calls; counts how many of them executed the
drain sequence (took the pool set). -/
def CoordState.shutdownN : ℕ → CoordState → CoordState × ℕ
  | 0, c => (c, 0)
  | n + 1, c =>
      let r := c.shutdown
      let r' := CoordState.shutdownN n r.1
      (r'.1, (if r.2.isSome then 1 else 0) + r'.2)

/-! ### Theorems: scoped executor and coordinator -/

theorem with_connection_exhausted (T E : Type) (connectOk : Bool) (s : PoolState)
    (op : Except E T) (h : s.idle = 0) (h2 : s.total = s.maxSize) :
    with_connection connectOk s op =
      (Except.error WithConnectionError.pool, s) := by
  unfold with_connection with_connectionS acquire
  rw [if_neg (by omega), if_neg (by omega)]

theorem runCalls_idle_preserved {T E : Type} :
    ∀ (calls : List (Bool × Except E T)) (s : PoolState), 1 ≤ s.idle →
    runCalls calls s = s := by
  intro calls
  induction calls with
  | nil => intro s _; rfl
  | cons c cs ih =>
      intro s hs
      unfold runCalls
      have hstep : (with_connection c.1 s c.2).2 = s := by
        unfold with_connection with_connectionS acquire
        rw [if_pos (by omega : 0 < s.idle)]
        have hidle : s.idle - 1 + 1 = s.idle := by omega
        rcases c.2 with e | v <;> simp [release, hidle]
      rw [hstep]
      exact ih s hs


theorem shutdownN_of_taken : ∀ (m : ℕ) (c : CoordState), c.inner = none →
    (CoordState.shutdownN m c).2 = 0 := by
  intro m
  induction m with
  | zero => intro c _; rfl
  | succ k ih =>
      intro c hc
      unfold CoordState.shutdownN CoordState.shutdown
      rw [hc]
      simp only [Option.isSome_none, Bool.false_eq_true, if_false]
      rw [ih { shutting_down := true, inner := none } rfl]

theorem with_connection_snd {T E : Type} (connectOk : Bool) (s : PoolState)
    (op : Except E T) (ps' : PoolState) (h : acquire connectOk s = some ps') :
    (with_connection connectOk s op).2 = release ps' := by
  unfold with_connection with_connectionS
  rw [h]
  rcases op with e | v <;> rfl

/-- C4: for every operation run under `with_transaction`: when acquisition
fails, a pool error is returned and nothing ran; when a connection was
acquired, an operation success commits (the store carries the operation's
final state and the value is returned as `Ok`), and an operation error
rolls every write back (the store is exactly as before the call) with the
original error surfaced wrapped as the `Operation` error kind.  In both
completed cases the connection returns to the pool. -/
theorem c4_with_transaction_atomic {S T E : Type} (connectOk : Bool)
    (ps : PoolState) (σ : S) (op : S → Except E (T × S)) :
    (acquire connectOk ps = none →
        with_transaction connectOk ps σ op =
          (Except.error WithConnectionError.pool, ps, σ)) ∧
    (∀ ps', acquire connectOk ps = some ps' →
        (∀ v σ', op σ = Except.ok (v, σ') →
            with_transaction connectOk ps σ op = (Except.ok v, release ps', σ')) ∧
        (∀ e, op σ = Except.error e →
            with_transaction connectOk ps σ op =
              (Except.error (WithConnectionError.operation e), release ps', σ))) := by
  constructor
  · intro hacq
    unfold with_transaction with_connectionS
    rw [hacq]
  · intro ps' hacq
    constructor
    · intro v σ' hop
      unfold with_transaction with_connectionS runTransaction
      rw [hacq, hop]
    · intro e hop
      unfold with_transaction with_connectionS runTransaction
      rw [hacq, hop]

/-- Witness for C4: a committing and a rolling-back transaction on a
concrete store (a counter), via the theorem. -/
theorem c4_with_transaction_atomic_witness :
    with_transaction true ⟨5, 1, 1⟩ (42 : ℕ)
        (fun n => (Except.ok ((), n + 1) : Except String (Unit × ℕ))) =
      (Except.ok (), ⟨5, 1, 1⟩, 43) ∧
    with_transaction true ⟨5, 1, 1⟩ (42 : ℕ)
        (fun _ => (Except.error "constraint" : Except String (Unit × ℕ))) =
      (Except.error (WithConnectionError.operation "constraint"), ⟨5, 1, 1⟩, 42) := by
  constructor
  · exact ((c4_with_transaction_atomic true ⟨5, 1, 1⟩ 42 _).2 ⟨5, 1, 0⟩ rfl).1 () 43 rfl
  · exact ((c4_with_transaction_atomic true ⟨5, 1, 1⟩ 42 _).2 ⟨5, 1, 0⟩ rfl).2
      "constraint" rfl

/-- C5: the drain sequence executes exactly once across any number of
`shutdown` calls: the first call consumes the pool-reference set, every
later call finds it already taken, returns normally (the function is total
— there is no error path) and drains nothing. -/
theorem c5_shutdown_exactly_once (db redis : PoolState) (n : ℕ) (hn : 1 ≤ n) :
    ((CoordState.new db redis).shutdownN n).2 = 1 ∧
    ((CoordState.new db redis).shutdown).2 = some ⟨db, redis⟩ ∧
    ((CoordState.new db redis).shutdown).1.inner = none ∧
    (∀ c : CoordState, c.inner = none →
        c.shutdown = ({ shutting_down := true, inner := none }, none)) := by
  refine ⟨?_, rfl, rfl, ?_⟩
  · obtain ⟨m, rfl⟩ : ∃ m, n = m + 1 := ⟨n - 1, by omega⟩
    unfold CoordState.shutdownN
    have h1 : (CoordState.new db redis).shutdown =
        ({ shutting_down := true, inner := none }, some ⟨db, redis⟩) := rfl
    rw [h1]
    simp only [Option.isSome_some, if_true]
    rw [shutdownN_of_taken m _ rfl]
  · intro c hc
    unfold CoordState.shutdown
    rw [hc]

/-- Witness for C5: three shutdown calls on a coordinator owning two
concrete pools drain exactly once. -/
theorem c5_shutdown_exactly_once_witness :
    ((CoordState.new ⟨90, 3, 2⟩ ⟨50, 1, 1⟩).shutdownN 3).2 = 1 :=
  (c5_shutdown_exactly_once ⟨90, 3, 2⟩ ⟨50, 1, 1⟩ 3 (by norm_num)).1

/-- C6 as stated is false on the code: bb8 creates connections lazily, so a
completed call against a cold pool (no idle connections) opens a fresh
connection and releases it into the idle set — the idle count rises from 0
to 1 instead of returning to its pre-call value. -/
theorem c6_with_connection_counterexample :
    (with_connection true ⟨5, 0, 0⟩
        (Except.ok () : Except Unit Unit)).1 = Except.ok () ∧
    (with_connection true ⟨5, 0, 0⟩
        (Except.ok () : Except Unit Unit)).2.idle = 1 ∧
    (⟨5, 0, 0⟩ : PoolState).idle = 0 := by
  refine ⟨rfl, rfl, rfl⟩

/-- C6 (amended): every `with_connection` call checks out at most one
connection and returns it on every exit path.  If acquisition fails the
pool is unchanged and a pool error is returned; a completed call (success
or operation error) leaves the pool either exactly as before — always the
case when an idle connection was available — or with one more open,
now-idle connection (fresh lazy creation); consequently, starting from a
pool with at least one idle connection, any number of completed sequential
calls leaves the idle count exactly at its pre-call value. -/
theorem c6_with_connection_no_leak {T E : Type} (connectOk : Bool)
    (s : PoolState) (op : Except E T) :
    (acquire connectOk s = none →
        with_connection connectOk s op =
          (Except.error WithConnectionError.pool, s)) ∧
    (acquire connectOk s ≠ none →
        ((with_connection connectOk s op).2 = s ∨
         (with_connection connectOk s op).2 =
           { s with total := s.total + 1, idle := s.idle + 1 }) ∧
        ((with_connection connectOk s op).2 = s ↔ 0 < s.idle)) ∧
    (∀ calls : List (Bool × Except E T), 1 ≤ s.idle → runCalls calls s = s) := by
  refine ⟨?_, ?_, fun calls h => runCalls_idle_preserved calls s h⟩
  · intro hacq
    unfold with_connection with_connectionS
    rw [hacq]
  · intro hacq
    by_cases h1 : 0 < s.idle
    · have ha : acquire connectOk s = some { s with idle := s.idle - 1 } := by
        unfold acquire
        rw [if_pos h1]
      have hsnd : (with_connection connectOk s op).2 =
          release { s with idle := s.idle - 1 } :=
        with_connection_snd connectOk s op _ ha
      have hs : release { s with idle := s.idle - 1 } = s := by
        have hidle : s.idle - 1 + 1 = s.idle := by omega
        simp [release, hidle]
      rw [hsnd, hs]
      exact ⟨Or.inl rfl, ⟨fun _ => h1, fun _ => rfl⟩⟩
    · have h2 : s.total < s.maxSize := by
        by_contra h2
        apply hacq
        unfold acquire
        rw [if_neg h1, if_neg h2]
      have h3 : connectOk = true := by
        by_contra h3
        apply hacq
        unfold acquire
        rw [if_neg h1, if_pos h2, if_neg h3]
      have ha : acquire connectOk s = some { s with total := s.total + 1 } := by
        unfold acquire
        rw [if_neg h1, if_pos h2, if_pos h3]
      have hsnd := with_connection_snd connectOk s op _ ha
      have hs : release { s with total := s.total + 1 } =
          { s with total := s.total + 1, idle := s.idle + 1 } := rfl
      rw [hsnd, hs]
      refine ⟨Or.inr rfl, ⟨?_, fun hidle => absurd hidle h1⟩⟩
      intro hcon
      have h4 : s.total + 1 = s.total := congrArg PoolState.total hcon
      omega

/-- Witness for C6 (amended): a concrete completed call against a warm pool
returns the pool to its exact prior state, and a call against an exhausted
pool fails without checking anything out. -/
theorem c6_with_connection_no_leak_witness :
    (with_connection true ⟨5, 3, 2⟩ (Except.ok () : Except Unit Unit)).2 =
      ⟨5, 3, 2⟩ ∧
    with_connection false ⟨5, 5, 0⟩ (Except.ok () : Except Unit Unit) =
      (Except.error WithConnectionError.pool, ⟨5, 5, 0⟩) ∧
    runCalls [(true, Except.ok ()), (true, Except.error ()), (false, Except.ok ())]
      ⟨5, 3, 2⟩ = ⟨5, 3, 2⟩ := by
  refine ⟨?_, ?_, ?_⟩
  · exact (((c6_with_connection_no_leak true ⟨5, 3, 2⟩ _).2.1 (by decide)).2).mpr
      (by decide)
  · exact (c6_with_connection_no_leak false ⟨5, 5, 0⟩ _).1 (by decide)
  · exact (c6_with_connection_no_leak true ⟨5, 3, 2⟩
      (Except.ok () : Except Unit Unit)).2.2 _ (by decide)


/-! ## CacheAsideQueryPath: the aggregation read path
(services/api/server/src/wire_api/core/v1/energy/aggregate/handler.rs) -/

/-- A `chrono::DateTime<Utc>` instant: seconds since the Unix epoch and a
subsecond nanosecond part (`0 ≤ nanos < 10^9` assumed throughout). -/
structure Timestamp where
  secs : ℤ
  nanos : ℕ
deriving DecidableEq

/-! ### Proleptic Gregorian civil-date arithmetic (chrono's date math,
modelled by Howard Hinnant's `civil_from_days` algorithm). -/

/-- `u - u/1460 + u/36524 - u/146096`: the year-of-era numerator. -/
def yoeNum (u : ℕ) : ℕ := u - u / 1460 + u / 36524 - u / 146096

/-- Year of era of a day of era `u ∈ [0, 146096]`. -/
def yoeOf (u : ℕ) : ℕ := yoeNum u / 365

/-- First day of era of year-of-era `y`. -/
def gStart (y : ℕ) : ℕ := 365 * y + y / 4 - y / 100

/-- Day of year (0-based, March-first years). -/
def doyOf (u : ℕ) : ℕ := u - gStart (yoeOf u)

/-- Shifted month `[0, 11]` (March = 0) from day of year. -/
def mpOf (doy : ℕ) : ℕ := (5 * doy + 2) / 153

/-- Day of month `[1, 31]` from day of year. -/
def dOf (doy : ℕ) : ℕ := doy - (153 * mpOf doy + 2) / 5 + 1

/-- Civil month `[1, 12]` from day of year. -/
def mOf (doy : ℕ) : ℕ := if mpOf doy < 10 then mpOf doy + 3 else mpOf doy - 9

/-- Era (400-year block) of a day count from 1970-01-01. -/
def eraOf (z : ℤ) : ℤ := (z + 719468) / 146097

/-- Day of era `[0, 146096]` of a day count from 1970-01-01. -/
def doeOf (z : ℤ) : ℕ := ((z + 719468) % 146097).toNat

/-- `civil_from_days`: civil (year, month, day) of the day count from
1970-01-01. -/
def civilOfDays (z : ℤ) : ℤ × ℕ × ℕ :=
  let y : ℤ := (yoeOf (doeOf z) : ℤ) + eraOf z * 400
  let m := mOf (doyOf (doeOf z))
  (if m ≤ 2 then y + 1 else y, m, dOf (doyOf (doeOf z)))

theorem yoeNum_mono {u v : ℕ} (huv : u ≤ v) (hv : v ≤ 146096) :
    yoeNum u ≤ yoeNum v := by
  unfold yoeNum
  omega

theorem yoeOf_mono {u v : ℕ} (huv : u ≤ v) (hv : v ≤ 146096) :
    yoeOf u ≤ yoeOf v :=
  Nat.div_le_div_right (yoeNum_mono huv hv)

/-- Endpoint table: the year-of-era formula is exact at the first and the
last day of each of the 400 years of an era. -/
theorem yoe_endpoints : ∀ y < 400, yoeOf (gStart y) = y ∧
    yoeOf ((if y = 399 then 146097 else gStart (y + 1)) - 1) = y := by
  decide

/-- For every day of era, the year-of-era start lies at or before it, the
day of year is at most 365, and the year of era is at most 399. -/
theorem doe_bounds (u : ℕ) (hu : u ≤ 146096) :
    gStart (yoeOf u) ≤ u ∧ u - gStart (yoeOf u) ≤ 365 ∧ yoeOf u ≤ 399 := by
  have h399 : yoeOf 146096 = 399 := by decide
  have htop : yoeOf u ≤ 399 := h399 ▸ yoeOf_mono hu le_rfl
  set y := yoeOf u with hy
  refine ⟨?_, ?_, htop⟩
  · by_contra hlt
    push_neg at hlt
    rcases Nat.eq_zero_or_pos y with hy0 | hy0
    · have hg0 : gStart 0 = 0 := by decide
      rw [hy0, hg0] at hlt
      omega
    · obtain ⟨he1', he2'⟩ := yoe_endpoints (y - 1) (by omega)
      have hnext : (if y - 1 = 399 then 146097 else gStart (y - 1 + 1)) =
          gStart y := by
        rw [if_neg (by omega)]
        congr 1
        omega
      rw [hnext] at he2'
      have hgtop : gStart y ≤ 146096 := by
        have hmono2 : gStart y ≤ gStart 400 := by
          unfold gStart
          omega
        have hg400 : gStart 400 = 146096 := by decide
        omega
      have hmono := yoeOf_mono (u := u) (v := gStart y - 1) (by omega) (by omega)
      omega
  · by_cases hl : y = 399
    · have hg : gStart 399 = 145731 := by decide
      rw [hl, hg]
      omega
    · by_contra hgt
      push_neg at hgt
      obtain ⟨he1', _⟩ := yoe_endpoints (y + 1) (by omega)
      have hstep : gStart (y + 1) ≤ gStart y + 366 := by
        unfold gStart
        omega
      have hge : gStart (y + 1) ≤ u := by omega
      have hmono := yoeOf_mono hge hu
      omega

/-- Month/day table facts for a day of year `[0, 365]`: the month-start
offset never exceeds the day of year, the shifted month is at most 11, and
day and month land in their civil ranges. -/
theorem doy_facts : ∀ doy < 366, (153 * mpOf doy + 2) / 5 ≤ doy ∧
    mpOf doy ≤ 11 ∧ 1 ≤ dOf doy ∧ dOf doy ≤ 31 ∧ 1 ≤ mOf doy ∧
    mOf doy ≤ 12 := by
  decide

/-- The day-count decomposition into era and day of era. -/
theorem era_doe (z : ℤ) :
    z = eraOf z * 146097 + (doeOf z : ℤ) - 719468 ∧ doeOf z ≤ 146096 := by
  unfold eraOf doeOf
  have h1 : 0 ≤ (z + 719468) % 146097 := Int.emod_nonneg _ (by norm_num)
  have h2 : (z + 719468) % 146097 < 146097 := Int.emod_lt_of_pos _ (by norm_num)
  have h3 := Int.ediv_add_emod (z + 719468) 146097
  constructor
  · rw [Int.toNat_of_nonneg h1]
    omega
  · omega

/-- The shifted month is recoverable from the civil month. -/
theorem mp_of_m (doy : ℕ) (h : doy < 366) :
    mpOf doy = if mOf doy ≤ 2 then mOf doy + 9 else mOf doy - 3 := by
  obtain ⟨-, hmp, -, -, -, -⟩ := doy_facts doy h
  unfold mOf
  by_cases hc : mpOf doy < 10
  · rw [if_pos hc, if_neg (by omega : ¬(mpOf doy + 3 ≤ 2))]
    omega
  · rw [if_neg hc, if_pos (by omega : mpOf doy - 9 ≤ 2)]
    omega

/-- `civil_from_days` is injective: two day counts with the same civil
(year, month, day) are equal. -/
theorem civilOfDays_inj {z1 z2 : ℤ} (h : civilOfDays z1 = civilOfDays z2) :
    z1 = z2 := by
  obtain ⟨hz1, hd1⟩ := era_doe z1
  obtain ⟨hz2, hd2⟩ := era_doe z2
  obtain ⟨hg1, hdoy1, hyoe1⟩ := doe_bounds (doeOf z1) hd1
  obtain ⟨hg2, hdoy2, hyoe2⟩ := doe_bounds (doeOf z2) hd2
  unfold civilOfDays at h
  simp only [Prod.mk.injEq] at h
  obtain ⟨hY, hM, hD⟩ := h
  have hdoyb1 : doyOf (doeOf z1) < 366 := by
    unfold doyOf
    omega
  have hdoyb2 : doyOf (doeOf z2) < 366 := by
    unfold doyOf
    omega
  have hmp : mpOf (doyOf (doeOf z1)) = mpOf (doyOf (doeOf z2)) := by
    rw [mp_of_m _ hdoyb1, mp_of_m _ hdoyb2, hM]
  have hdoy : doyOf (doeOf z1) = doyOf (doeOf z2) := by
    obtain ⟨ho1, -, -, -, -, -⟩ := doy_facts _ hdoyb1
    obtain ⟨ho2, -, -, -, -, -⟩ := doy_facts _ hdoyb2
    unfold dOf at hD
    rw [hmp] at hD ho1
    omega
  have hy : (yoeOf (doeOf z1) : ℤ) + eraOf z1 * 400 =
      (yoeOf (doeOf z2) : ℤ) + eraOf z2 * 400 := by
    rw [hM] at hY
    by_cases hc : mOf (doyOf (doeOf z2)) ≤ 2
    · rw [if_pos hc, if_pos hc] at hY
      omega
    · rw [if_neg hc, if_neg hc] at hY
      omega
  have hera : eraOf z1 = eraOf z2 ∧ yoeOf (doeOf z1) = yoeOf (doeOf z2) := by
    constructor
    · omega
    · omega
  have hdoe : doeOf z1 = doeOf z2 := by
    unfold doyOf at hdoy
    rw [hera.2] at hg1 hdoy
    omega
  omega

/-! ### Decimal digit rendering and reading -/

/-- The decimal digit characters. -/
def digitChar : ℕ → Char
  | 0 => '0' | 1 => '1' | 2 => '2' | 3 => '3' | 4 => '4'
  | 5 => '5' | 6 => '6' | 7 => '7' | 8 => '8' | 9 => '9'
  | _ => '*'

/-- Numeric value of a digit character (0 on non-digits). -/
def digitVal (c : Char) : ℕ :=
  if c = '0' then 0 else if c = '1' then 1 else if c = '2' then 2
  else if c = '3' then 3 else if c = '4' then 4 else if c = '5' then 5
  else if c = '6' then 6 else if c = '7' then 7 else if c = '8' then 8
  else if c = '9' then 9 else 0

theorem digit_facts : ∀ k < 10, (digitChar k).isDigit = true ∧
    digitVal (digitChar k) = k ∧ digitChar k ≠ 'n' ∧ digitChar k ≠ ':' := by
  decide

/-- `n` zero-padded to exactly `w` decimal digits (most significant
first); exact when `n < 10 ^ w`. -/
def padDigits : ℕ → ℕ → List Char
  | 0, _ => []
  | w + 1, n => digitChar (n / 10 ^ w) :: padDigits w (n % 10 ^ w)

/-- Value of a digit string under an accumulator. -/
def valAux (a : ℕ) : List Char → ℕ
  | [] => a
  | c :: cs => valAux (10 * a + digitVal c) cs

theorem lead_digit_lt (v n : ℕ) (hn : n < 10 ^ (v + 1)) : n / 10 ^ v < 10 := by
  rw [Nat.div_lt_iff_lt_mul (Nat.pos_pow_of_pos v (by norm_num))]
  have hp : 10 ^ (v + 1) = 10 ^ v * 10 := pow_succ 10 v
  omega

theorem padDigits_all_digit : ∀ (w n : ℕ), n < 10 ^ w →
    ∀ c ∈ padDigits w n, c.isDigit = true := by
  intro w
  induction w with
  | zero =>
      intro n _ c hc
      exact absurd hc (by simp [padDigits])
  | succ v ih =>
      intro n hn c hc
      rw [padDigits] at hc
      rcases List.mem_cons.mp hc with hc | hc
      · subst hc
        exact (digit_facts _ (lead_digit_lt v n hn)).1
      · exact ih (n % 10 ^ v)
          (Nat.mod_lt _ (Nat.pos_pow_of_pos v (by norm_num))) c hc

theorem valAux_padDigits : ∀ (w a n : ℕ), n < 10 ^ w →
    valAux a (padDigits w n) = a * 10 ^ w + n := by
  intro w
  induction w with
  | zero =>
      intro a n hn
      have hn0 : n = 0 := by
        have : (10 : ℕ) ^ 0 = 1 := pow_zero 10
        omega
      subst hn0
      show a = a * 10 ^ 0 + 0
      rw [pow_zero]
      ring
  | succ v ih =>
      intro a n hn
      rw [padDigits, valAux,
        (digit_facts _ (lead_digit_lt v n hn)).2.1,
        ih _ _ (Nat.mod_lt _ (Nat.pos_pow_of_pos v (by norm_num)))]
      have hdm := Nat.div_add_mod n (10 ^ v)
      calc (10 * a + n / 10 ^ v) * 10 ^ v + n % 10 ^ v
          = a * (10 ^ v * 10) + (10 ^ v * (n / 10 ^ v) + n % 10 ^ v) := by ring
        _ = a * 10 ^ (v + 1) + n := by rw [hdm, pow_succ]

/-- Number of decimal digits, via fuel. -/
def numDigitsAux : ℕ → ℕ → ℕ
  | 0, _ => 1
  | fuel + 1, n => if n < 10 then 1 else numDigitsAux fuel (n / 10) + 1

def numDigits (n : ℕ) : ℕ := numDigitsAux n n

theorem numDigitsAux_lt : ∀ (fuel n : ℕ), n ≤ fuel →
    n < 10 ^ numDigitsAux fuel n := by
  intro fuel
  induction fuel with
  | zero =>
      intro n hn
      have hn0 : n = 0 := by omega
      subst hn0
      show (0 : ℕ) < 10 ^ numDigitsAux 0 0
      decide
  | succ f ih =>
      intro n hn
      show n < 10 ^ numDigitsAux (f + 1) n
      rw [numDigitsAux]
      by_cases h10 : n < 10
      · rw [if_pos h10]
        have : (10 : ℕ) ^ 1 = 10 := by norm_num
        omega
      · rw [if_neg h10]
        have hrec : n / 10 ≤ f := by omega
        have hih := ih (n / 10) hrec
        have hp : 10 ^ (numDigitsAux f (n / 10) + 1) =
            10 ^ numDigitsAux f (n / 10) * 10 := pow_succ 10 _
        omega

theorem numDigits_lt (n : ℕ) : n < 10 ^ numDigits n :=
  numDigitsAux_lt n n le_rfl

/-! ### RFC 3339 rendering (chrono `DateTime<Utc>::to_rfc3339`) and a
parser used to invert it -/

/-- The year field: `%Y` pads to 4 digits within `[0, 9999]`; years
outside carry an explicit sign. -/
def renderYear (y : ℤ) : List Char :=
  if y < 0 then '-' :: padDigits (max 4 (numDigits y.natAbs)) y.natAbs
  else if y ≤ 9999 then padDigits 4 y.toNat
  else '+' :: padDigits (numDigits y.toNat) y.toNat

/-- The `%.f` fractional part: empty for a whole second, else `.` and 3, 6
or 9 digits (milli-, micro- or nanosecond precision, AutoSi). -/
def renderFrac (nanos : ℕ) : List Char :=
  if nanos = 0 then []
  else if nanos % 1000000 = 0 then '.' :: padDigits 3 (nanos / 1000000)
  else if nanos % 1000 = 0 then '.' :: padDigits 6 (nanos / 1000)
  else '.' :: padDigits 9 nanos

/-- `DateTime<Utc>::to_rfc3339` over the model timestamp:
`year-month-dayThh:mm:ss[.frac]+00:00`. -/
def renderTs (t : Timestamp) : List Char :=
  renderYear (civilOfDays (t.secs / 86400)).1 ++
  '-' :: padDigits 2 (civilOfDays (t.secs / 86400)).2.1 ++
  '-' :: padDigits 2 (civilOfDays (t.secs / 86400)).2.2 ++
  'T' :: padDigits 2 ((t.secs % 86400).toNat / 3600) ++
  ':' :: padDigits 2 ((t.secs % 86400).toNat % 3600 / 60) ++
  ':' :: padDigits 2 ((t.secs % 86400).toNat % 60) ++
  renderFrac t.nanos ++ ['+', '0', '0', ':', '0', '0']

/-- The fields of a rendered timestamp, as read back by the parser. -/
structure TsFields where
  year : ℤ
  month : ℕ
  day : ℕ
  hour : ℕ
  minute : ℕ
  second : ℕ
  nanos : ℕ
deriving DecidableEq

/-- The fields a valid timestamp renders to. -/
def tsFields (t : Timestamp) : TsFields :=
  { year := (civilOfDays (t.secs / 86400)).1,
    month := (civilOfDays (t.secs / 86400)).2.1,
    day := (civilOfDays (t.secs / 86400)).2.2,
    hour := (t.secs % 86400).toNat / 3600,
    minute := (t.secs % 86400).toNat % 3600 / 60,
    second := (t.secs % 86400).toNat % 60,
    nanos := t.nanos }

/-- Read a nonempty maximal run of digits. -/
def readNat (l : List Char) : Option (ℕ × List Char) :=
  let ds := l.takeWhile Char.isDigit
  if ds.isEmpty then none
  else some (valAux 0 ds, l.dropWhile Char.isDigit)

/-- Read an optionally signed year (maximal munch on the digits). -/
def parseYear (l : List Char) : Option (ℤ × List Char) :=
  match l with
  | [] => none
  | c :: rest =>
      if c = '-' then (readNat rest).map (fun p => (-(p.1 : ℤ), p.2))
      else if c = '+' then (readNat rest).map (fun p => ((p.1 : ℤ), p.2))
      else (readNat (c :: rest)).map (fun p => ((p.1 : ℤ), p.2))

/-- Read exactly two digits. -/
def read2 : List Char → Option (ℕ × List Char)
  | c1 :: c2 :: rest =>
      if c1.isDigit && c2.isDigit then
        some (10 * digitVal c1 + digitVal c2, rest)
      else none
  | _ => none

/-- Expect a literal character. -/
def expectChar (c : Char) : List Char → Option (List Char)
  | x :: rest => if x = c then some rest else none
  | _ => none

/-- Read an optional fractional-seconds field back to nanoseconds. -/
def parseFrac (l : List Char) : Option (ℕ × List Char) :=
  match l with
  | [] => some (0, [])
  | c :: rest =>
      if c = '.' then
        let ds := rest.takeWhile Char.isDigit
        if ds.isEmpty then none
        else if 9 < ds.length then none
        else some (valAux 0 ds * 10 ^ (9 - ds.length),
          rest.dropWhile Char.isDigit)
      else some (0, c :: rest)

/-- Parse one rendered timestamp, returning the fields and what follows. -/
def parseTs (l : List Char) : Option (TsFields × List Char) :=
  (parseYear l).bind fun yl =>
  (expectChar '-' yl.2).bind fun l2 =>
  (read2 l2).bind fun mol =>
  (expectChar '-' mol.2).bind fun l4 =>
  (read2 l4).bind fun dl =>
  (expectChar 'T' dl.2).bind fun l6 =>
  (read2 l6).bind fun hhl =>
  (expectChar ':' hhl.2).bind fun l8 =>
  (read2 l8).bind fun mil =>
  (expectChar ':' mil.2).bind fun l10 =>
  (read2 l10).bind fun ssl =>
  (parseFrac ssl.2).bind fun nsl =>
  match nsl.2 with
  | '+' :: '0' :: '0' :: ':' :: '0' :: '0' :: rest =>
      some (⟨yl.1, mol.1, dl.1, hhl.1, mil.1, ssl.1, nsl.1⟩, rest)
  | _ => none

theorem span_split (p : Char → Bool) :
    ∀ (l1 : List Char) (c : Char) (l2 : List Char),
    (∀ x ∈ l1, p x = true) → p c = false →
    (l1 ++ c :: l2).takeWhile p = l1 ∧
    (l1 ++ c :: l2).dropWhile p = c :: l2 := by
  intro l1
  induction l1 with
  | nil =>
      intro c l2 _ hc
      constructor
      · show (c :: l2).takeWhile p = []
        rw [List.takeWhile_cons, hc]
        simp
      · show (c :: l2).dropWhile p = c :: l2
        rw [List.dropWhile_cons, hc]
        simp
  | cons x xs ih =>
      intro c l2 hall hc
      have hx : p x = true := hall x (List.mem_cons_self x xs)
      obtain ⟨iht, ihd⟩ := ih c l2 (fun z hz => hall z (List.mem_cons_of_mem x hz)) hc
      constructor
      · show ((x :: xs) ++ c :: l2).takeWhile p = x :: xs
        rw [List.cons_append, List.takeWhile_cons, hx]
        simp [iht]
      · show ((x :: xs) ++ c :: l2).dropWhile p = c :: l2
        rw [List.cons_append, List.dropWhile_cons, hx]
        simp [ihd]

theorem padDigits_length : ∀ (w n : ℕ), (padDigits w n).length = w := by
  intro w
  induction w with
  | zero => intro n; rfl
  | succ v ih =>
      intro n
      rw [padDigits, List.length_cons, ih]

theorem readNat_pad (w n : ℕ) (c : Char) (rest : List Char) (hn : n < 10 ^ w)
    (hw : 0 < w) (hc : c.isDigit = false) :
    readNat (padDigits w n ++ c :: rest) = some (n, c :: rest) := by
  obtain ⟨ht, hd⟩ := span_split Char.isDigit (padDigits w n) c rest
    (padDigits_all_digit w n hn) hc
  unfold readNat
  rw [ht, hd]
  have hne : (padDigits w n).isEmpty = false := by
    cases hpd : padDigits w n with
    | nil =>
        have hlen := padDigits_length w n
        rw [hpd] at hlen
        simp at hlen
        omega
    | cons a l => rfl
  show (if (padDigits w n).isEmpty = true then none
    else some (valAux 0 (padDigits w n), c :: rest)) = some (n, c :: rest)
  rw [hne]
  simp only [Bool.false_eq_true, if_false]
  rw [valAux_padDigits w 0 n hn]
  norm_num

theorem digit_facts2 : ∀ k < 10, digitChar k ≠ '-' ∧ digitChar k ≠ '+' ∧
    digitChar k ≠ '.' := by
  decide

theorem numDigitsAux_pos : ∀ (fuel n : ℕ), 0 < numDigitsAux fuel n := by
  intro fuel
  cases fuel with
  | zero => intro n; exact Nat.one_pos
  | succ f =>
      intro n
      rw [numDigitsAux]
      by_cases h : n < 10
      · rw [if_pos h]
        exact Nat.one_pos
      · rw [if_neg h]
        omega

theorem parseYear_digit_run (v n : ℕ) (L : List Char) (hn : n < 10 ^ (v + 1)) :
    parseYear (padDigits (v + 1) n ++ '-' :: L) = some ((n : ℤ), '-' :: L) := by
  have hlead : n / 10 ^ v < 10 := lead_digit_lt v n hn
  obtain ⟨hm, hp, -⟩ := digit_facts2 _ hlead
  show parseYear (digitChar (n / 10 ^ v) ::
    (padDigits v (n % 10 ^ v) ++ '-' :: L)) = some ((n : ℤ), '-' :: L)
  simp only [parseYear]
  rw [if_neg hm, if_neg hp]
  rw [show digitChar (n / 10 ^ v) :: (padDigits v (n % 10 ^ v) ++ '-' :: L) =
    padDigits (v + 1) n ++ '-' :: L from rfl]
  rw [readNat_pad (v + 1) n '-' L hn (by omega) (by decide)]
  rfl

theorem parseYear_render (y : ℤ) (L : List Char) :
    parseYear (renderYear y ++ '-' :: L) = some (y, '-' :: L) := by
  unfold renderYear
  by_cases h0 : y < 0
  · rw [if_pos h0]
    have hb : y.natAbs < 10 ^ max 4 (numDigits y.natAbs) := by
      have h1 := numDigits_lt y.natAbs
      have h2 : (10 : ℕ) ^ numDigits y.natAbs ≤
          10 ^ max 4 (numDigits y.natAbs) :=
        Nat.pow_le_pow_right (by norm_num) (le_max_right _ _)
      omega
    show parseYear ('-' ::
      (padDigits (max 4 (numDigits y.natAbs)) y.natAbs ++ '-' :: L)) =
      some (y, '-' :: L)
    simp only [parseYear]
    rw [if_pos trivial]
    rw [readNat_pad _ y.natAbs '-' L hb (by omega) (by decide)]
    show some (-(y.natAbs : ℤ), '-' :: L) = some (y, '-' :: L)
    have hy : ((y.natAbs : ℤ)) = -y := by omega
    rw [hy, neg_neg]
  · rw [if_neg h0]
    by_cases h9 : y ≤ 9999
    · rw [if_pos h9]
      have h4 : (10 : ℕ) ^ 4 = 10000 := by norm_num
      have hb : y.toNat < 10 ^ (3 + 1) := by omega
      rw [show (4 : ℕ) = 3 + 1 from rfl, parseYear_digit_run 3 y.toNat L hb]
      rw [Int.toNat_of_nonneg (by omega)]
    · rw [if_neg h9]
      have hb := numDigits_lt y.toNat
      have hpos := numDigitsAux_pos y.toNat y.toNat
      show parseYear ('+' ::
        (padDigits (numDigits y.toNat) y.toNat ++ '-' :: L)) =
        some (y, '-' :: L)
      simp only [parseYear]
      rw [if_neg (by decide : ¬('+' : Char) = '-'), if_pos trivial]
      rw [readNat_pad _ y.toNat '-' L hb hpos (by decide)]
      show some ((y.toNat : ℤ), '-' :: L) = some (y, '-' :: L)
      rw [Int.toNat_of_nonneg (by omega)]

theorem read2_pad (n : ℕ) (rest : List Char) (hn : n < 100) :
    read2 (padDigits 2 n ++ rest) = some (n, rest) := by
  have e1 : (10 : ℕ) ^ 1 = 10 := by norm_num
  have e0 : (10 : ℕ) ^ 0 = 1 := by norm_num
  have e2 : (10 : ℕ) ^ 2 = 100 := by norm_num
  have h1 : n / 10 ^ 1 < 10 := lead_digit_lt 1 n (by omega)
  have h2 : n % 10 ^ 1 / 10 ^ 0 < 10 := by omega
  show read2 (digitChar (n / 10 ^ 1) ::
    digitChar (n % 10 ^ 1 / 10 ^ 0) :: rest) = some (n, rest)
  simp only [read2, (digit_facts _ h1).1, (digit_facts _ h2).1,
    (digit_facts _ h1).2.1, (digit_facts _ h2).2.1, Bool.and_self,
    if_true, Option.some.injEq, Prod.mk.injEq]
  exact ⟨by omega, trivial⟩

theorem expectChar_cons (c : Char) (rest : List Char) :
    expectChar c (c :: rest) = some rest := by
  simp only [expectChar]
  rw [if_pos trivial]

theorem parseFrac_dot (w q : ℕ) (tail : List Char) (hq : q < 10 ^ w)
    (h1 : 1 ≤ w) (h9 : w ≤ 9) :
    parseFrac ('.' :: (padDigits w q ++ '+' :: tail)) =
      some (q * 10 ^ (9 - w), '+' :: tail) := by
  obtain ⟨ht, hd⟩ := span_split Char.isDigit (padDigits w q) '+' tail
    (padDigits_all_digit w q hq) (by decide)
  have hne : (padDigits w q).isEmpty = false := by
    cases hpd : padDigits w q with
    | nil =>
        have hlen := padDigits_length w q
        rw [hpd] at hlen
        simp at hlen
        omega
    | cons a l => rfl
  simp only [parseFrac]
  rw [if_pos trivial]
  show (if (List.takeWhile Char.isDigit (padDigits w q ++ '+' :: tail)).isEmpty = true
      then none
      else if 9 < (List.takeWhile Char.isDigit (padDigits w q ++ '+' :: tail)).length
      then none
      else some (valAux 0 (List.takeWhile Char.isDigit (padDigits w q ++ '+' :: tail)) *
        10 ^ (9 - (List.takeWhile Char.isDigit (padDigits w q ++ '+' :: tail)).length),
        List.dropWhile Char.isDigit (padDigits w q ++ '+' :: tail))) =
    some (q * 10 ^ (9 - w), '+' :: tail)
  rw [ht, hd, hne, padDigits_length, valAux_padDigits w 0 q hq]
  simp only [Bool.false_eq_true, if_false]
  rw [if_neg (by omega)]
  norm_num

theorem parseFrac_render (nanos : ℕ) (tail : List Char) (hn : nanos < 10 ^ 9) :
    parseFrac (renderFrac nanos ++ '+' :: tail) = some (nanos, '+' :: tail) := by
  have e9 : (10 : ℕ) ^ 9 = 1000000000 := by norm_num
  have e6 : (10 : ℕ) ^ 6 = 1000000 := by norm_num
  have e3 : (10 : ℕ) ^ 3 = 1000 := by norm_num
  unfold renderFrac
  by_cases h0 : nanos = 0
  · subst h0
    rw [if_pos rfl]
    show parseFrac ('+' :: tail) = some (0, '+' :: tail)
    simp [parseFrac]
  · rw [if_neg h0]
    by_cases h6 : nanos % 1000000 = 0
    · rw [if_pos h6]
      have hq : nanos / 1000000 < 10 ^ 3 := by omega
      show parseFrac ('.' :: (padDigits 3 (nanos / 1000000) ++ '+' :: tail)) =
        some (nanos, '+' :: tail)
      rw [parseFrac_dot 3 _ tail hq (by omega) (by omega)]
      have : nanos / 1000000 * 10 ^ (9 - 3) = nanos := by
        have e : (10 : ℕ) ^ (9 - 3) = 1000000 := by norm_num
        omega
      rw [this]
    · rw [if_neg h6]
      by_cases h3 : nanos % 1000 = 0
      · rw [if_pos h3]
        have hq : nanos / 1000 < 10 ^ 6 := by omega
        show parseFrac ('.' :: (padDigits 6 (nanos / 1000) ++ '+' :: tail)) =
          some (nanos, '+' :: tail)
        rw [parseFrac_dot 6 _ tail hq (by omega) (by omega)]
        have : nanos / 1000 * 10 ^ (9 - 6) = nanos := by
          have e : (10 : ℕ) ^ (9 - 6) = 1000 := by norm_num
          omega
        rw [this]
      · rw [if_neg h3]
        show parseFrac ('.' :: (padDigits 9 nanos ++ '+' :: tail)) =
          some (nanos, '+' :: tail)
        rw [parseFrac_dot 9 _ tail hn (by omega) (by omega)]
        have : nanos * 10 ^ (9 - 9) = nanos := by
          have e : (10 : ℕ) ^ (9 - 9) = 1 := by norm_num
          omega
        rw [this]

/-- Reading back a rendered timestamp recovers its fields exactly,
whatever follows it. -/
theorem parseTs_render (t : Timestamp) (hn : t.nanos < 10 ^ 9)
    (rest : List Char) :
    parseTs (renderTs t ++ rest) = some (tsFields t, rest) := by
  obtain ⟨-, hdoe⟩ := era_doe (t.secs / 86400)
  obtain ⟨hg, hdoy, -⟩ := doe_bounds (doeOf (t.secs / 86400)) hdoe
  have hdoyb : doyOf (doeOf (t.secs / 86400)) < 366 := by
    unfold doyOf
    omega
  obtain ⟨-, -, hd1, hd31, hm1, hm12⟩ := doy_facts _ hdoyb
  have hsod : (t.secs % 86400).toNat < 86400 := by
    have h1 : 0 ≤ t.secs % 86400 := Int.emod_nonneg t.secs (by norm_num)
    have h2 : t.secs % 86400 < 86400 :=
      Int.emod_lt_of_pos t.secs (by norm_num)
    omega
  have hmm : (civilOfDays (t.secs / 86400)).2.1 = mOf (doyOf (doeOf (t.secs / 86400))) := rfl
  have hdd : (civilOfDays (t.secs / 86400)).2.2 = dOf (doyOf (doeOf (t.secs / 86400))) := rfl
  unfold renderTs parseTs
  simp only [List.cons_append, List.append_assoc]
  rw [parseYear_render]
  simp only [Option.some_bind]
  rw [expectChar_cons]
  simp only [Option.some_bind]
  rw [read2_pad _ _ (by rw [hmm]; omega)]
  simp only [Option.some_bind]
  rw [expectChar_cons]
  simp only [Option.some_bind]
  rw [read2_pad _ _ (by rw [hdd]; omega)]
  simp only [Option.some_bind]
  rw [expectChar_cons]
  simp only [Option.some_bind]
  rw [read2_pad _ _ (by omega : (t.secs % 86400).toNat / 3600 < 100)]
  simp only [Option.some_bind]
  rw [expectChar_cons]
  simp only [Option.some_bind]
  rw [read2_pad _ _ (by omega : (t.secs % 86400).toNat % 3600 / 60 < 100)]
  simp only [Option.some_bind]
  rw [expectChar_cons]
  simp only [Option.some_bind]
  rw [read2_pad _ _ (by omega : (t.secs % 86400).toNat % 60 < 100)]
  simp only [Option.some_bind]
  rw [parseFrac_render _ _ hn]
  simp only [Option.some_bind]
  rfl

/-- The rendered fields determine the timestamp. -/
theorem tsFields_inj {t1 t2 : Timestamp} (h : tsFields t1 = tsFields t2) :
    t1 = t2 := by
  have hy : (civilOfDays (t1.secs / 86400)).1 =
      (civilOfDays (t2.secs / 86400)).1 := congrArg TsFields.year h
  have hm : (civilOfDays (t1.secs / 86400)).2.1 =
      (civilOfDays (t2.secs / 86400)).2.1 := congrArg TsFields.month h
  have hd : (civilOfDays (t1.secs / 86400)).2.2 =
      (civilOfDays (t2.secs / 86400)).2.2 := congrArg TsFields.day h
  have hdays : t1.secs / 86400 = t2.secs / 86400 :=
    civilOfDays_inj (Prod.ext hy (Prod.ext hm hd))
  have hh : (t1.secs % 86400).toNat / 3600 =
      (t2.secs % 86400).toNat / 3600 := congrArg TsFields.hour h
  have hmi : (t1.secs % 86400).toNat % 3600 / 60 =
      (t2.secs % 86400).toNat % 3600 / 60 := congrArg TsFields.minute h
  have hss : (t1.secs % 86400).toNat % 60 =
      (t2.secs % 86400).toNat % 60 := congrArg TsFields.second h
  have hnan : t1.nanos = t2.nanos := congrArg TsFields.nanos h
  have hm1 : 0 ≤ t1.secs % 86400 := Int.emod_nonneg _ (by norm_num)
  have hm2 : 0 ≤ t2.secs % 86400 := Int.emod_nonneg _ (by norm_num)
  have hb1 : t1.secs % 86400 < 86400 := Int.emod_lt_of_pos _ (by norm_num)
  have hb2 : t2.secs % 86400 < 86400 := Int.emod_lt_of_pos _ (by norm_num)
  have e1 := Int.ediv_add_emod t1.secs 86400
  have e2 := Int.ediv_add_emod t2.secs 86400
  have hsecs : t1.secs = t2.secs := by omega
  cases t1 with
  | mk s1 n1 =>
      cases t2 with
      | mk s2 n2 =>
          rw [show s1 = s2 from hsecs, show n1 = n2 from hnan]

/-- A rendered timestamp starts with a sign or a digit — never with `n`. -/
theorem renderTs_head (t : Timestamp) :
    ∃ c l, renderTs t = c :: l ∧ c ≠ 'n' := by
  unfold renderTs renderYear
  by_cases h0 : (civilOfDays (t.secs / 86400)).1 < 0
  · rw [if_pos h0]
    exact ⟨'-', _, rfl, by decide⟩
  · rw [if_neg h0]
    by_cases h9 : (civilOfDays (t.secs / 86400)).1 ≤ 9999
    · rw [if_pos h9]
      have hb : (civilOfDays (t.secs / 86400)).1.toNat < 10 ^ (3 + 1) := by
        have e4 : (10 : ℕ) ^ (3 + 1) = 10000 := by norm_num
        omega
      have hlead := lead_digit_lt 3 _ hb
      obtain ⟨-, -, hne, -⟩ := digit_facts _ hlead
      exact ⟨digitChar ((civilOfDays (t.secs / 86400)).1.toNat / 10 ^ 3), _,
        rfl, hne⟩
    · rw [if_neg h9]
      exact ⟨'+', _, rfl, by decide⟩

/-- The renderer is injective on valid timestamps. -/
theorem renderTs_inj {t1 t2 : Timestamp} (h1 : t1.nanos < 10 ^ 9)
    (h2 : t2.nanos < 10 ^ 9) (h : renderTs t1 = renderTs t2) : t1 = t2 := by
  have p1 := parseTs_render t1 h1 []
  have p2 := parseTs_render t2 h2 []
  rw [h, p2] at p1
  simp only [Option.some.injEq, Prod.mk.injEq] at p1
  exact (tsFields_inj p1.1).symm

/-- `DateTime<Utc>::to_rfc3339` (chrono, external library): the RFC 3339
rendering used by `cache_key`. -/
def to_rfc3339 (t : Timestamp) : String := String.mk (renderTs t)

/-- `AggregationType` (aggregate/models.rs lines 7-11). -/
inductive AggregationType where
  | hourly
  | dayOfMonth
  | monthly
deriving DecidableEq

/-- `Display for AggregationType` (models.rs lines 23-31). -/
def AggregationType.display : AggregationType → String
  | AggregationType.hourly => "hourly"
  | AggregationType.dayOfMonth => "day_of_month"
  | AggregationType.monthly => "monthly"

/-- `AggregationType::to_trunc_level` (models.rs lines 13-21): the fixed,
total mapping to the store-level truncation granularity. -/
def AggregationType.to_trunc_level : AggregationType → String
  | AggregationType.hourly => "hour"
  | AggregationType.dayOfMonth => "day"
  | AggregationType.monthly => "month"

/-- `AggregateRequest` (models.rs lines 36-48). -/
structure AggregateRequest where
  aggregation_type : AggregationType
  date_from : Option Timestamp
  date_to : Option Timestamp
deriving DecidableEq

/-- `AggregateDataPoint` (models.rs lines 53-61). -/
structure AggregateDataPoint where
  period : Timestamp
  total_kwh : String
deriving DecidableEq

/-- `AggregateResponse` (models.rs lines 66-71). -/
structure AggregateResponse where
  aggregation_type : AggregationType
  date_from : Option Timestamp
  date_to : Option Timestamp
  data : List AggregateDataPoint
deriving DecidableEq

/-- `cache_key` (handler.rs lines 20-31):
`format!("energy:aggregate:{}:{}:{}", type, from.map_or("none", rfc3339), to.map_or("none", rfc3339))`. -/
def cache_key (payload : AggregateRequest) : String :=
  "energy:aggregate:" ++ payload.aggregation_type.display ++ ":" ++
    (match payload.date_from with
     | none => "none"
     | some d => to_rfc3339 d) ++ ":" ++
    (match payload.date_to with
     | none => "none"
     | some d => to_rfc3339 d)

/-- A row of `EnergyReading::aggregate`; the `BigDecimal` sum is modelled by
its decimal rendering (the handler only ever calls `to_string()` on it). -/
structure AggregateRow where
  period : Timestamp
  total_kwh : String
deriving DecidableEq

/-- `NewQueryHistory` (libs/postgres_models/src/models/query_history.rs
lines 16-22). -/
structure NewQueryHistory where
  aggregation_type : String
  date_from : Option Timestamp
  date_to : Option Timestamp
deriving DecidableEq

deriving instance DecidableEq for Except

/-- A value stored in the cache: either the serde_json encoding of a
response, or bytes that do not deserialize to one (serde_json is an
external collaborator; only encode/decode round-tripping is relied on). -/
inductive CacheBlob where
  | enc (r : AggregateResponse)
  | junk (s : String)
deriving DecidableEq

/-- `serde_json::from_str::<AggregateResponse>`. -/
def decodeBlob : CacheBlob → Option AggregateResponse
  | CacheBlob.enc r => some r
  | CacheBlob.junk _ => none

/-- The redis keyspace behind the cache pool: entries carry their absolute
expiry instant (seconds); `GET` returns a value only while unexpired. -/
abbrev CacheEntries := List (String × CacheBlob × ℕ)

/-- Redis `GET key` at instant `now`. -/
def cacheLookup (entries : CacheEntries) (key : String) (now : ℕ) :
    Option CacheBlob :=
  match entries.find? (fun e => e.1 == key) with
  | some e => if now < e.2.2 then some e.2.1 else none
  | none => none

/-- Redis `SET_EX key value ttl` issued at instant `now`. -/
def cacheInsert (entries : CacheEntries) (key : String) (blob : CacheBlob)
    (expiry : ℕ) : CacheEntries :=
  (key, blob, expiry) :: entries

/-- `CACHE_TTL_SECONDS` (handler.rs line 18). -/
def CACHE_TTL_SECONDS : ℕ := 300

/-- `errors::Error` (aggregate/errors.rs lines 8-14); the
`diesel::result::Error` payload is modelled by its rendered message. -/
inductive HandlerError where
  | databaseError (e : String)
  | poolError (e : String)
deriving DecidableEq

/-- The `map_err` arms at handler.rs lines 74-80 and 104-110:
`recorder.record` only emits telemetry (external) and converts, so the
request fails with the pool error or the database error respectively.  The
rendered message of the bb8 `RunError` is not modelled. -/
def liftConnErr : WithConnectionError String → HandlerError
  | WithConnectionError.pool => HandlerError.poolError "connection"
  | WithConnectionError.operation e => HandlerError.databaseError e

/-- Oracles for one handler invocation: outcomes of the external calls the
handler makes, in source order, plus the current instant. -/
structure HandlerEnv where
  historyConnectOk : Bool
  historyOutcome : Except String Unit
  cacheGetConnOk : Bool
  cacheGetOk : Bool
  aggregateConnOk : Bool
  aggregateOutcome : Except String (List AggregateRow)
  serializeOk : Bool
  cacheSetConnOk : Bool
  cacheSetOk : Bool
  now : ℕ
deriving DecidableEq

/-- `AppState` as the handler sees it: the two relational pools with the
history table behind the primary one, and the cache keyspace behind the
cache pool. -/
structure AppState where
  pool : PoolState
  read_only_pool : PoolState
  history : List NewQueryHistory
  cache : CacheEntries
deriving DecidableEq

/-- Observable effects of one handler run, in order. -/
inductive Effect where
  | historyWrite
  | cacheRead (key : String)
  | aggregateQuery (trunc : String) (dfrom dto : Option Timestamp)
  | cacheWrite (key : String)
deriving DecidableEq

/-- The `NewQueryHistory` built from the request (handler.rs lines 65-69). -/
def mkNewQueryHistory (payload : AggregateRequest) : NewQueryHistory :=
  { aggregation_type := payload.aggregation_type.display,
    date_from := payload.date_from,
    date_to := payload.date_to }

/-- `QueryHistory::create` run on the history table: on a database error
nothing is inserted. -/
def historyOp (env : HandlerEnv) (payload : AggregateRequest) :
    List NewQueryHistory → Except String Unit × List NewQueryHistory :=
  fun h =>
    match env.historyOutcome with
    | Except.ok _ => (Except.ok (), mkNewQueryHistory payload :: h)
    | Except.error e => (Except.error e, h)

/-- The cache-read stage (handler.rs lines 82-93): a hit is a successfully
obtained connection, a successful `GET` that found an unexpired value, and
a successful deserialization; every failure on the way is a miss. -/
def handlerReadHit (env : HandlerEnv) (cache : CacheEntries) (key : String) :
    Option AggregateResponse :=
  if env.cacheGetConnOk then
    if env.cacheGetOk then
      match cacheLookup cache key env.now with
      | some blob => decodeBlob blob
      | none => none
    else none
  else none

/-- The response assembled from the store rows (handler.rs lines 112-125). -/
def mkResponse (payload : AggregateRequest) (rows : List AggregateRow) :
    AggregateResponse :=
  { aggregation_type := payload.aggregation_type,
    date_from := payload.date_from,
    date_to := payload.date_to,
    data := rows.map (fun r => { period := r.period, total_kwh := r.total_kwh }) }

/-- `handler` (handler.rs lines 49-135), with the pools, the history table
and the cache keyspace threaded explicitly and the external outcomes given
by `env`.  Returns the handler result (`Ok` is the 200 response), the new
state, and the ordered effect trace. -/
def handler (env : HandlerEnv) (st : AppState) (payload : AggregateRequest) :
    Except HandlerError AggregateResponse × AppState × List Effect :=
  let hist := with_connectionS env.historyConnectOk st.pool st.history
    (historyOp env payload)
  match hist.1 with
  | Except.error we =>
      (Except.error (liftConnErr we),
       { st with pool := hist.2.1, history := hist.2.2 }, [])
  | Except.ok _ =>
      let st1 : AppState := { st with pool := hist.2.1, history := hist.2.2 }
      let key := cache_key payload
      match handlerReadHit env st1.cache key with
      | some response =>
          (Except.ok response, st1, [Effect.historyWrite, Effect.cacheRead key])
      | none =>
          let trunc := payload.aggregation_type.to_trunc_level
          let agg := with_connectionS env.aggregateConnOk st1.read_only_pool ()
            (fun u => (env.aggregateOutcome, u))
          let st2 : AppState := { st1 with read_only_pool := agg.2.1 }
          match agg.1 with
          | Except.error we =>
              (Except.error (liftConnErr we), st2,
               [Effect.historyWrite, Effect.cacheRead key,
                Effect.aggregateQuery trunc payload.date_from payload.date_to])
          | Except.ok rows =>
              let response := mkResponse payload rows
              if env.serializeOk then
                if env.cacheSetConnOk then
                  let newCache := cacheInsert st2.cache key
                    (CacheBlob.enc response) (env.now + CACHE_TTL_SECONDS)
                  let st3 : AppState := { st2 with cache := newCache }
                  (Except.ok response,
                   if env.cacheSetOk then st3 else st2,
                   [Effect.historyWrite, Effect.cacheRead key,
                    Effect.aggregateQuery trunc payload.date_from payload.date_to,
                    Effect.cacheWrite key])
                else
                  (Except.ok response, st2,
                   [Effect.historyWrite, Effect.cacheRead key,
                    Effect.aggregateQuery trunc payload.date_from payload.date_to])
              else
                (Except.ok response, st2,
                 [Effect.historyWrite, Effect.cacheRead key,
                  Effect.aggregateQuery trunc payload.date_from payload.date_to])


/-! ### Stage equations for `handler` -/

theorem handler_pool_fail (env : HandlerEnv) (st : AppState)
    (payload : AggregateRequest)
    (hacq : acquire env.historyConnectOk st.pool = none) :
    handler env st payload =
      (Except.error (liftConnErr WithConnectionError.pool), st, []) := by
  have hh : with_connectionS env.historyConnectOk st.pool st.history
      (historyOp env payload) =
      (Except.error WithConnectionError.pool, st.pool, st.history) := by
    unfold with_connectionS
    rw [hacq]
  unfold handler
  rw [hh]

theorem handler_history_err (env : HandlerEnv) (st : AppState)
    (payload : AggregateRequest) (ps' : PoolState) (e : String)
    (hacq : acquire env.historyConnectOk st.pool = some ps')
    (hout : env.historyOutcome = Except.error e) :
    handler env st payload =
      (Except.error (HandlerError.databaseError e),
       { st with pool := release ps' }, []) := by
  have hh : with_connectionS env.historyConnectOk st.pool st.history
      (historyOp env payload) =
      (Except.error (WithConnectionError.operation e), release ps', st.history) := by
    unfold with_connectionS historyOp
    rw [hacq, hout]
  unfold handler
  rw [hh]
  rfl

theorem handler_history_ok_state (env : HandlerEnv) (st : AppState)
    (payload : AggregateRequest) (ps' : PoolState)
    (hacq : acquire env.historyConnectOk st.pool = some ps')
    (hout : env.historyOutcome = Except.ok ()) :
    (handler env st payload).2.1.history =
      mkNewQueryHistory payload :: st.history ∧
    (handler env st payload).2.2.head? = some Effect.historyWrite := by
  have hh : with_connectionS env.historyConnectOk st.pool st.history
      (historyOp env payload) =
      (Except.ok (), release ps', mkNewQueryHistory payload :: st.history) := by
    unfold with_connectionS historyOp
    rw [hacq, hout]
  unfold handler
  rw [hh]
  simp only
  cases hhit : handlerReadHit env st.cache (cache_key payload) with
  | some r => simp [hhit]
  | none =>
      cases hagg : (with_connectionS env.aggregateConnOk st.read_only_pool ()
          (fun u => (env.aggregateOutcome, u))).1 with
      | error we => simp [hhit, hagg]
      | ok rows =>
          by_cases hs : env.serializeOk <;> by_cases hc : env.cacheSetConnOk <;>
            by_cases hso : env.cacheSetOk <;>
            simp [hhit, hagg, hs, hc, hso]

/-- C3: on every invocation, a `QueryHistoryRecord` built from the request
inputs is persisted via `with_connection` against the primary pool before
any cache access (it is the first effect of every completed run, including
cache hits), and a history-write failure — pool acquisition or the insert
itself — fails the whole request with that error, before any cache or
store-of-record access. -/
theorem c3_history_write_unconditional (env : HandlerEnv) (st : AppState)
    (payload : AggregateRequest) :
    (acquire env.historyConnectOk st.pool = none →
        handler env st payload =
          (Except.error (liftConnErr WithConnectionError.pool), st, [])) ∧
    (∀ ps', acquire env.historyConnectOk st.pool = some ps' →
        (∀ e, env.historyOutcome = Except.error e →
            handler env st payload =
              (Except.error (HandlerError.databaseError e),
               { st with pool := release ps' }, [])) ∧
        (env.historyOutcome = Except.ok () →
            (handler env st payload).2.1.history =
              mkNewQueryHistory payload :: st.history ∧
            (handler env st payload).2.2.head? = some Effect.historyWrite)) := by
  refine ⟨fun hacq => handler_pool_fail env st payload hacq, ?_⟩
  intro ps' hacq
  exact ⟨fun e hout => handler_history_err env st payload ps' e hacq hout,
         fun hout => handler_history_ok_state env st payload ps' hacq hout⟩

/-- Witness for C3: a concrete run where the history insert fails aborts
the whole request with that database error and touches nothing else, and a
concrete healthy run records the history write as its first effect. -/
theorem c3_history_write_unconditional_witness :
    handler ⟨true, Except.error "duplicate key", true, true, true,
        Except.ok [], true, true, true, 0⟩
      ⟨⟨90, 1, 1⟩, ⟨90, 1, 1⟩, [], []⟩
      ⟨AggregationType.hourly, none, none⟩ =
      (Except.error (HandlerError.databaseError "duplicate key"),
       ⟨⟨90, 1, 1⟩, ⟨90, 1, 1⟩, [], []⟩, []) ∧
    (handler ⟨true, Except.ok (), true, true, true, Except.ok [], true, true,
        true, 0⟩
      ⟨⟨90, 1, 1⟩, ⟨90, 1, 1⟩, [], []⟩
      ⟨AggregationType.hourly, none, none⟩).2.2.head? =
      some Effect.historyWrite := by
  constructor
  · exact ((c3_history_write_unconditional _ _ _).2 ⟨90, 1, 0⟩ (by decide)).1
      "duplicate key" rfl
  · exact (((c3_history_write_unconditional _ _ _).2 ⟨90, 1, 0⟩ (by decide)).2
      rfl).2


/-- The handler's returned result is fully determined by the history
outcome, the cache-read outcome and the aggregation outcome; the
cache-write stage never influences it. -/
theorem handler_fst_char (env : HandlerEnv) (st : AppState)
    (payload : AggregateRequest) :
    (handler env st payload).1 =
      match (with_connectionS env.historyConnectOk st.pool st.history
          (historyOp env payload)).1 with
      | Except.error we => Except.error (liftConnErr we)
      | Except.ok _ =>
          match handlerReadHit env st.cache (cache_key payload) with
          | some r => Except.ok r
          | none =>
              match (with_connectionS env.aggregateConnOk st.read_only_pool ()
                  (fun u => (env.aggregateOutcome, u))).1 with
              | Except.error we => Except.error (liftConnErr we)
              | Except.ok rows => Except.ok (mkResponse payload rows) := by
  unfold handler
  cases hh : (with_connectionS env.historyConnectOk st.pool st.history
      (historyOp env payload)).1 with
  | error we => simp [hh]
  | ok u =>
      simp only [hh]
      cases hhit : handlerReadHit env st.cache (cache_key payload) with
      | some r => simp [hhit]
      | none =>
          cases hagg : (with_connectionS env.aggregateConnOk st.read_only_pool ()
              (fun u => (env.aggregateOutcome, u))).1 with
          | error we => simp [hhit, hagg]
          | ok rows =>
              by_cases hs : env.serializeOk <;> by_cases hc : env.cacheSetConnOk <;>
                by_cases hso : env.cacheSetOk <;>
                simp [hhit, hagg, hs, hc, hso]

/-- C7: cache failures are invisible in the returned result.  Whatever the
outcomes of serializing the computed response and of obtaining a cache
connection or executing the `SET` for the write-back, the returned result
is unchanged; and whenever the cache read does not produce a successful
hit — no cache connection, a failed `GET`, an absent or expired key, or a
value that does not deserialize — the result equals that of a run with the
cache entirely unavailable. -/
theorem c7_cache_failures_absorbed (env : HandlerEnv) (st : AppState)
    (payload : AggregateRequest) :
    (∀ b1 b2 b3 : Bool,
        (handler { env with serializeOk := b1, cacheSetConnOk := b2, cacheSetOk := b3 } st payload).1 = (handler env st payload).1) ∧
    (handlerReadHit env st.cache (cache_key payload) = none →
        (handler env st payload).1 =
          (handler { env with cacheGetConnOk := false, cacheGetOk := false, serializeOk := false, cacheSetConnOk := false, cacheSetOk := false } st payload).1) := by
  constructor
  · intro b1 b2 b3
    rw [handler_fst_char, handler_fst_char]
    rfl
  · intro hmiss
    rw [handler_fst_char, handler_fst_char]
    have hmiss' : handlerReadHit { env with cacheGetConnOk := false, cacheGetOk := false, serializeOk := false, cacheSetConnOk := false, cacheSetOk := false } st.cache (cache_key payload) = none := rfl
    rw [hmiss, hmiss']
    rfl


theorem c7_cache_failures_absorbed_witness :
    (handler ⟨true, Except.ok (), true, true, true, Except.ok [], false, true,
        true, 7⟩ ⟨⟨5, 1, 1⟩, ⟨5, 1, 1⟩, [], []⟩
      ⟨AggregationType.monthly, none, none⟩).1 =
      (handler ⟨true, Except.ok (), false, false, true, Except.ok [], false,
          false, false, 7⟩ ⟨⟨5, 1, 1⟩, ⟨5, 1, 1⟩, [], []⟩
        ⟨AggregationType.monthly, none, none⟩).1 :=
  (c7_cache_failures_absorbed ⟨true, Except.ok (), true, true, true,
      Except.ok [], false, true, true, 7⟩ ⟨⟨5, 1, 1⟩, ⟨5, 1, 1⟩, [], []⟩
    ⟨AggregationType.monthly, none, none⟩).2 rfl


/-! ### The cache-hit path and the two-call scenario -/

/-- Detector for the store-of-record aggregation query in an effect trace. -/
def Effect.isAggregateQuery : Effect → Bool
  | Effect.aggregateQuery _ _ _ => true
  | _ => false

/-- An environment in which every external interaction succeeds: the store
accepts connections, the history insert succeeds, the cache is reachable for
`GET` and `SET`, the aggregation query returns `rows`, and serialization
succeeds; `now` is the wall-clock second of the call. -/
def healthyEnv (rows : List AggregateRow) (now : ℕ) : HandlerEnv :=
  { historyConnectOk := true, historyOutcome := Except.ok (),
    cacheGetConnOk := true, cacheGetOk := true,
    aggregateConnOk := true, aggregateOutcome := Except.ok rows,
    serializeOk := true, cacheSetConnOk := true, cacheSetOk := true,
    now := now }

/-- On a cache hit the handler returns the cached response immediately: the
trace stops after the history write and the cache read — no aggregation
query, no cache write — and the state changes only in the primary pool
bookkeeping and the appended history record. -/
theorem handler_hit (env : HandlerEnv) (st : AppState)
    (payload : AggregateRequest) (ps' : PoolState) (r : AggregateResponse)
    (hacq : acquire env.historyConnectOk st.pool = some ps')
    (hout : env.historyOutcome = Except.ok ())
    (hhit : handlerReadHit env st.cache (cache_key payload) = some r) :
    handler env st payload =
      (Except.ok r,
       { st with pool := release ps', history := mkNewQueryHistory payload :: st.history },
       [Effect.historyWrite, Effect.cacheRead (cache_key payload)]) := by
  have hh : with_connectionS env.historyConnectOk st.pool st.history
      (historyOp env payload) =
      (Except.ok (), release ps', mkNewQueryHistory payload :: st.history) := by
    unfold with_connectionS historyOp
    rw [hacq, hout]
  unfold handler
  rw [hh]
  simp only
  rw [hhit]

/-- A healthy run that misses the cache: the full pipeline executes — the
history write, the cache read, the aggregation query and the cache
write-back — and the state gains the history record and the fresh cache
entry, with both pools restored. -/
theorem handler_healthy_miss (rows : List AggregateRow) (st : AppState)
    (payload : AggregateRequest) (t : ℕ)
    (h1 : 0 < st.pool.idle) (h2 : 0 < st.read_only_pool.idle)
    (hmiss : handlerReadHit (healthyEnv rows t) st.cache (cache_key payload) = none) :
    handler (healthyEnv rows t) st payload =
      (Except.ok (mkResponse payload rows),
       { st with history := mkNewQueryHistory payload :: st.history, cache := (cache_key payload, CacheBlob.enc (mkResponse payload rows), t + CACHE_TTL_SECONDS) :: st.cache },
       [Effect.historyWrite, Effect.cacheRead (cache_key payload),
        Effect.aggregateQuery payload.aggregation_type.to_trunc_level
          payload.date_from payload.date_to,
        Effect.cacheWrite (cache_key payload)]) := by
  have hacq1 : acquire true st.pool = some { st.pool with idle := st.pool.idle - 1 } := by
    unfold acquire
    rw [if_pos h1]
  have hrel1 : release { st.pool with idle := st.pool.idle - 1 } = st.pool := by
    have hi : st.pool.idle - 1 + 1 = st.pool.idle := by omega
    simp [release, hi]
  have hacq2 : acquire true st.read_only_pool =
      some { st.read_only_pool with idle := st.read_only_pool.idle - 1 } := by
    unfold acquire
    rw [if_pos h2]
  have hrel2 : release { st.read_only_pool with idle := st.read_only_pool.idle - 1 } =
      st.read_only_pool := by
    have hi : st.read_only_pool.idle - 1 + 1 = st.read_only_pool.idle := by omega
    simp [release, hi]
  have hh : with_connectionS (healthyEnv rows t).historyConnectOk st.pool st.history
      (historyOp (healthyEnv rows t) payload) =
      (Except.ok (), st.pool, mkNewQueryHistory payload :: st.history) := by
    simp only [with_connectionS, historyOp, healthyEnv, hacq1, hrel1]
  have hagg : with_connectionS (healthyEnv rows t).aggregateConnOk st.read_only_pool ()
      (fun u => ((healthyEnv rows t).aggregateOutcome, u)) =
      (Except.ok rows, st.read_only_pool, ()) := by
    simp only [with_connectionS, healthyEnv, hacq2, hrel2]
  unfold handler
  rw [hh]
  simp only
  rw [hmiss]
  simp only
  rw [hagg]
  rfl


/-- C8: a cache hit — a value found under the key that deserializes
successfully — makes the handler return the cached response immediately:
the effect trace is exactly the history write followed by the cache read
(no aggregation query, no cache write) and only the primary pool and the
history change.  Consequently two identical requests in a healthy
environment, the second within `CACHE_TTL_SECONDS` of the first, produce
two history records, return the same response, and execute the aggregation
query exactly once across the two traces. -/
theorem c8_cache_hit_short_circuits :
    (∀ (env : HandlerEnv) (st : AppState) (payload : AggregateRequest)
        (ps' : PoolState) (r : AggregateResponse),
        acquire env.historyConnectOk st.pool = some ps' →
        env.historyOutcome = Except.ok () →
        handlerReadHit env st.cache (cache_key payload) = some r →
        handler env st payload =
          (Except.ok r,
           { st with pool := release ps', history := mkNewQueryHistory payload :: st.history },
           [Effect.historyWrite, Effect.cacheRead (cache_key payload)])) ∧
    (∀ (rows : List AggregateRow) (st : AppState) (payload : AggregateRequest)
        (t1 t2 : ℕ),
        0 < st.pool.idle → 0 < st.read_only_pool.idle →
        handlerReadHit (healthyEnv rows t1) st.cache (cache_key payload) = none →
        t2 < t1 + CACHE_TTL_SECONDS →
        (handler (healthyEnv rows t2)
            (handler (healthyEnv rows t1) st payload).2.1 payload).1 =
          (handler (healthyEnv rows t1) st payload).1 ∧
        (handler (healthyEnv rows t2)
            (handler (healthyEnv rows t1) st payload).2.1 payload).2.1.history.length =
          st.history.length + 2 ∧
        ((handler (healthyEnv rows t1) st payload).2.2 ++
            (handler (healthyEnv rows t2)
              (handler (healthyEnv rows t1) st payload).2.1 payload).2.2).countP
          Effect.isAggregateQuery = 1) := by
  constructor
  · exact fun env st payload ps' r hacq hout hhit =>
      handler_hit env st payload ps' r hacq hout hhit
  · intro rows st payload t1 t2 h1 h2 hmiss hlt
    have e1 := handler_healthy_miss rows st payload t1 h1 h2 hmiss
    have hstate : (handler (healthyEnv rows t1) st payload).2.1 =
        { st with history := mkNewQueryHistory payload :: st.history, cache := (cache_key payload, CacheBlob.enc (mkResponse payload rows), t1 + CACHE_TTL_SECONDS) :: st.cache } := by
      rw [e1]
    have hacq2' : acquire (healthyEnv rows t2).historyConnectOk
        (handler (healthyEnv rows t1) st payload).2.1.pool =
        some { st.pool with idle := st.pool.idle - 1 } := by
      rw [hstate]
      show acquire true st.pool = some _
      unfold acquire
      rw [if_pos h1]
    have hlook : cacheLookup
        ((cache_key payload, CacheBlob.enc (mkResponse payload rows), t1 + CACHE_TTL_SECONDS) :: st.cache)
        (cache_key payload) t2 = some (CacheBlob.enc (mkResponse payload rows)) := by
      unfold cacheLookup
      rw [List.find?_cons_of_pos _ (by simp)]
      show (if t2 < t1 + CACHE_TTL_SECONDS then some (CacheBlob.enc (mkResponse payload rows)) else none) = some (CacheBlob.enc (mkResponse payload rows))
      rw [if_pos hlt]
    have hhit2 : handlerReadHit (healthyEnv rows t2)
        (handler (healthyEnv rows t1) st payload).2.1.cache (cache_key payload) =
        some (mkResponse payload rows) := by
      rw [hstate]
      show handlerReadHit (healthyEnv rows t2)
        ((cache_key payload, CacheBlob.enc (mkResponse payload rows), t1 + CACHE_TTL_SECONDS) :: st.cache)
        (cache_key payload) = some (mkResponse payload rows)
      simp [handlerReadHit, healthyEnv, hlook, decodeBlob]
    have e2 := handler_hit (healthyEnv rows t2)
      (handler (healthyEnv rows t1) st payload).2.1 payload
      { st.pool with idle := st.pool.idle - 1 } (mkResponse payload rows)
      hacq2' rfl hhit2
    refine ⟨?_, ?_, ?_⟩
    · rw [e2, e1]
    · rw [e2, hstate]
      rfl
    · rw [e2, e1]
      rfl


/-- Concrete inputs for the cache-hit scenario: a fresh entry for the
hourly no-boundary request sits in the cache, unexpired at instant 50. -/
def c8envW : HandlerEnv :=
  ⟨true, Except.ok (), true, true, true, Except.ok [], true, true, true, 50⟩

def c8respW : AggregateResponse :=
  { aggregation_type := AggregationType.hourly, date_from := none,
    date_to := none, data := [] }

def c8stW : AppState :=
  ⟨⟨10, 2, 2⟩, ⟨10, 2, 2⟩, [],
   [("energy:aggregate:hourly:none:none", CacheBlob.enc c8respW, 100)]⟩

def c8payW : AggregateRequest := ⟨AggregationType.hourly, none, none⟩

theorem c8_cache_hit_short_circuits_witness :
    handler c8envW c8stW c8payW =
      (Except.ok c8respW,
       { c8stW with pool := release ⟨10, 2, 1⟩, history := mkNewQueryHistory c8payW :: c8stW.history },
       [Effect.historyWrite, Effect.cacheRead (cache_key c8payW)]) :=
  c8_cache_hit_short_circuits.1 c8envW c8stW c8payW ⟨10, 2, 1⟩ c8respW
    (by decide) rfl (by decide)


/-- `bb8::State` as read by the drain loops: total connections and idle
connections (connection.rs lines 113-119). -/
structure PoolSnapshot where
  connections : ℕ
  idle_connections : ℕ
deriving DecidableEq

/-- `state.connections - state.idle_connections` (connection.rs line 118). -/
def snapActive (s : PoolSnapshot) : ℕ := s.connections - s.idle_connections

/-- Outcome of one drain task, in 100 ms ticks: the tick at which the
function returns, and whether the pool was told to close on the way out. -/
structure DrainResult where
  finishTick : ℕ
  closed : Bool
deriving DecidableEq

/-- The polling loop of the PostgreSQL `shutdown_pool_with_timeout`
(connection.rs lines 128-147): each iteration sleeps one tick, reads the
snapshot, exits when no connection is checked out, otherwise exits when
the elapsed time exceeds the timeout.  `fuel` bounds the recursion; the
loop is entered with enough fuel that the bound is never the reason it
stops (`pgDrainLoop_spec`). -/
def pgDrainLoop (active : ℕ → ℕ) (timeoutTicks : ℕ) : ℕ → ℕ → ℕ
  | 0, t => t
  | fuel + 1, t =>
      if active t = 0 then t
      else if timeoutTicks < t then t
      else pgDrainLoop active timeoutTicks fuel (t + 1)

/-- PostgreSQL `shutdown_pool_with_timeout` (connection.rs lines 107-155)
over a snapshot trace `snap` (the pool state each task would read at each
tick): when connections are checked out at entry, poll every tick until
drained or past the timeout; in every case the pool is dropped (closed)
when the function returns. -/
def pg_shutdown_pool_with_timeout (snap : ℕ → PoolSnapshot)
    (timeoutTicks : ℕ) : DrainResult :=
  if (snap 0).idle_connections < (snap 0).connections then
    { finishTick :=
        pgDrainLoop (fun t => snapActive (snap t)) timeoutTicks
          (timeoutTicks + 2) 1,
      closed := true }
  else { finishTick := 0, closed := true }

/-- Redis `shutdown_pool_with_timeout` (redis_cache connection.rs lines
27-38): sleep a flat 100 ms once, then `pool.close()`; the snapshot trace
and the timeout are never consulted. -/
def redis_shutdown_pool_with_timeout (_snap : ℕ → PoolSnapshot)
    (_timeoutTicks : ℕ) : DrainResult :=
  { finishTick := 1, closed := true }

/-- The behaviour claimed for each drain task, phrased from the spec: the
pool ends up closed; the task finishes exactly when the polled snapshot
shows `total == idle` or the bounded timeout has elapsed; and it never
finishes earlier — before the finish tick every poll showed checked-out
connections and the timeout had not elapsed. -/
def DrainsPerClaim (snap : ℕ → PoolSnapshot) (timeoutTicks : ℕ)
    (d : DrainResult) : Prop :=
  d.closed = true ∧
  ((snap d.finishTick).connections = (snap d.finishTick).idle_connections ∨
    timeoutTicks < d.finishTick) ∧
  ∀ t, t < d.finishTick →
    (snap t).connections ≠ (snap t).idle_connections ∧ t ≤ timeoutTicks

/-- The exit tick of the PostgreSQL polling loop satisfies the claimed
drain discipline: entered at tick 1 with fuel `timeoutTicks + 2`, it stops
at the first tick at which the trace is drained or the timeout has been
exceeded, and at no earlier tick did either condition hold. -/
theorem pgDrainLoop_spec (active : ℕ → ℕ) (T : ℕ) :
    ∀ fuel t, t + fuel = T + 3 → 1 ≤ t →
      (∀ u, u < t → (1 ≤ u → active u ≠ 0) ∧ u ≤ T) →
      (active (pgDrainLoop active T fuel t) = 0 ∨
        T < pgDrainLoop active T fuel t) ∧
      (∀ u, u < pgDrainLoop active T fuel t →
        (1 ≤ u → active u ≠ 0) ∧ u ≤ T) ∧
      1 ≤ pgDrainLoop active T fuel t := by
  intro fuel
  induction fuel with
  | zero =>
      intro t ht h1 hprev
      refine ⟨Or.inr ?_, hprev, h1⟩
      show T < pgDrainLoop active T 0 t
      have hl : pgDrainLoop active T 0 t = t := rfl
      omega
  | succ n ih =>
      intro t ht h1 hprev
      have he : pgDrainLoop active T (n + 1) t =
          if active t = 0 then t
          else if T < t then t
          else pgDrainLoop active T n (t + 1) := rfl
      by_cases h0 : active t = 0
      · have hl : pgDrainLoop active T (n + 1) t = t := by
          rw [he, if_pos h0]
        rw [hl]
        exact ⟨Or.inl h0, hprev, h1⟩
      · by_cases hT : T < t
        · have hl : pgDrainLoop active T (n + 1) t = t := by
            rw [he, if_neg h0, if_pos hT]
          rw [hl]
          exact ⟨Or.inr hT, hprev, h1⟩
        · have hl : pgDrainLoop active T (n + 1) t =
              pgDrainLoop active T n (t + 1) := by
            rw [he, if_neg h0, if_neg hT]
          rw [hl]
          refine ih (t + 1) (by omega) (by omega) ?_
          intro u hu
          by_cases hut : u < t
          · exact hprev u hut
          · have huu : u = t := by omega
            subst huu
            exact ⟨fun _ => h0, by omega⟩

/-- Shared fact: the PostgreSQL drain does satisfy the claimed discipline
for every snapshot trace that is well-formed (idle never exceeds total). -/
theorem pg_drain_per_claim (snap : ℕ → PoolSnapshot) (T : ℕ)
    (hwf : ∀ t, (snap t).idle_connections ≤ (snap t).connections) :
    DrainsPerClaim snap T (pg_shutdown_pool_with_timeout snap T) := by
  unfold pg_shutdown_pool_with_timeout
  by_cases h0 : (snap 0).idle_connections < (snap 0).connections
  · rw [if_pos h0]
    obtain ⟨ha, hb, hc⟩ := pgDrainLoop_spec (fun t => snapActive (snap t)) T
      (T + 2) 1 (by omega) le_rfl
      (by
        intro u hu
        have hu0 : u = 0 := by omega
        subst hu0
        exact ⟨fun h => absurd h (by omega), by omega⟩)
    refine ⟨rfl, ?_, ?_⟩
    · show (snap (pgDrainLoop (fun t => snapActive (snap t)) T (T + 2) 1)).connections =
          (snap (pgDrainLoop (fun t => snapActive (snap t)) T (T + 2) 1)).idle_connections ∨
        T < pgDrainLoop (fun t => snapActive (snap t)) T (T + 2) 1
      rcases ha with ha | ha
      · left
        have ha' : (snap (pgDrainLoop (fun t => snapActive (snap t)) T (T + 2) 1)).connections -
            (snap (pgDrainLoop (fun t => snapActive (snap t)) T (T + 2) 1)).idle_connections = 0 := ha
        have hwff := hwf (pgDrainLoop (fun t => snapActive (snap t)) T (T + 2) 1)
        omega
      · right
        exact ha
    · show ∀ t, t < pgDrainLoop (fun t => snapActive (snap t)) T (T + 2) 1 →
        (snap t).connections ≠ (snap t).idle_connections ∧ t ≤ T
      intro t ht
      obtain ⟨hb1, hb2⟩ := hb t ht
      refine ⟨?_, hb2⟩
      rcases Nat.eq_zero_or_pos t with ht0 | ht0
      · subst ht0
        omega
      · have h' : (snap t).connections - (snap t).idle_connections ≠ 0 := hb1 ht0
        omega
  · rw [if_neg h0]
    refine ⟨rfl, Or.inl ?_, ?_⟩
    · show (snap 0).connections = (snap 0).idle_connections
      have := hwf 0
      omega
    · show ∀ t, t < (0 : ℕ) → (snap t).connections ≠ (snap t).idle_connections ∧ t ≤ T
      intro t ht
      exact absurd ht (Nat.not_lt_zero t)

/-- C2 counterexample: the Redis drain does not follow the claimed
discipline.  Against a trace that always shows one checked-out connection
and a 10 s (100-tick) timeout, it returns at tick 1 — drained nothing,
waited out no timeout — because it never polls the snapshot at all. -/
theorem c2_drain_counterexample :
    ¬ DrainsPerClaim (fun _ => ⟨1, 0⟩) 100
        (redis_shutdown_pool_with_timeout (fun _ => ⟨1, 0⟩) 100) := by
  unfold DrainsPerClaim redis_shutdown_pool_with_timeout
  decide

/-- C2 (amended): the PostgreSQL drain polls the `{connections,
idle_connections}` snapshot every 100 ms tick and finishes exactly when a
poll shows no checked-out connection or the timeout has elapsed, closing
the pool in either outcome — for every well-formed snapshot trace.  The
Redis drain, however, never polls: whatever the trace and the timeout, it
sleeps one flat 100 ms tick and closes the pool. -/
theorem c2_drain_amended :
    (∀ (snap : ℕ → PoolSnapshot) (timeoutTicks : ℕ),
        (∀ t, (snap t).idle_connections ≤ (snap t).connections) →
        DrainsPerClaim snap timeoutTicks
          (pg_shutdown_pool_with_timeout snap timeoutTicks)) ∧
    (∀ (snap : ℕ → PoolSnapshot) (timeoutTicks : ℕ),
        redis_shutdown_pool_with_timeout snap timeoutTicks =
          { finishTick := 1, closed := true }) :=
  ⟨pg_drain_per_claim, fun _ _ => rfl⟩

theorem c2_drain_amended_witness :
    DrainsPerClaim (fun _ => ⟨2, 1⟩) 3
      (pg_shutdown_pool_with_timeout (fun _ => ⟨2, 1⟩) 3) ∧
    redis_shutdown_pool_with_timeout (fun _ => ⟨2, 1⟩) 3 =
      { finishTick := 1, closed := true } :=
  ⟨c2_drain_amended.1 (fun _ => ⟨2, 1⟩) 3 (fun _ => Nat.le_succ 1),
   c2_drain_amended.2 (fun _ => ⟨2, 1⟩) 3⟩

/-! ## establish_connection (libs/postgres_models/src/connection.rs lines 76-104) -/

/-- The bb8 builder configuration applied in `establish_connection`
(connection.rs lines 90-98). -/
structure PgPoolConfig where
  max_size : ℕ
  connection_timeout_secs : ℕ
  idle_timeout_secs : ℕ
  max_lifetime_secs : ℕ
deriving DecidableEq

/-- `establish_connection` (connection.rs lines 76-104) with the external
outcomes as oracles: creating the tokio client, querying
`current_setting('max_connections')` (an i32 on success), building the
bb8 pool, and the `SELECT 1` probe.  The pool is built with
`max_size = calculate_optimal_pool_size(max_conn, 1,
MIN_RESERVED_CONNECTIONS)` and the fixed builder durations. -/
def establish_connection (clientOk : Bool) (maxConnResult : Except String ℤ)
    (buildOk : Bool) (probeOk : Bool) : Except String PgPoolConfig :=
  if clientOk then
    match maxConnResult with
    | Except.error e => Except.error e
    | Except.ok max_conn =>
        if buildOk then
          if probeOk then
            Except.ok
              { max_size := calculate_optimal_pool_size max_conn 1
                  MIN_RESERVED_CONNECTIONS,
                connection_timeout_secs := 10,
                idle_timeout_secs := 180,
                max_lifetime_secs := 3600 }
          else Except.error "connection probe failed"
        else Except.error "pool build failed"
  else Except.error "client creation failed"

/-- C10: every pool built by `establish_connection` computes its maximum
size with the instance count hard-coded to `1` and the reserved-admin
count hard-coded to the constant `MIN_RESERVED_CONNECTIONS = 10`; no
deployment instance count enters the function, so only the store's
advertised `max_connections` varies the configured size. -/
theorem c10_establish_connection_fixed_args :
    MIN_RESERVED_CONNECTIONS = 10 ∧
    ∀ (clientOk : Bool) (maxConnResult : Except String ℤ)
      (buildOk probeOk : Bool) (cfg : PgPoolConfig),
      establish_connection clientOk maxConnResult buildOk probeOk =
        Except.ok cfg →
      ∃ max_conn, maxConnResult = Except.ok max_conn ∧
        cfg = { max_size := calculate_optimal_pool_size max_conn 1 MIN_RESERVED_CONNECTIONS, connection_timeout_secs := 10, idle_timeout_secs := 180, max_lifetime_secs := 3600 } := by
  refine ⟨rfl, ?_⟩
  intro clientOk maxConnResult buildOk probeOk cfg h
  unfold establish_connection at h
  cases clientOk with
  | false => simp at h
  | true =>
      cases maxConnResult with
      | error e => simp at h
      | ok m =>
          cases buildOk with
          | false => simp at h
          | true =>
              cases probeOk with
              | false => simp at h
              | true =>
                  simp at h
                  exact ⟨m, rfl, h.symm⟩

theorem c10_establish_connection_fixed_args_witness :
    (∃ max_conn, (Except.ok (100 : ℤ) : Except String ℤ) = Except.ok max_conn ∧
      ({ max_size := calculate_optimal_pool_size 100 1 MIN_RESERVED_CONNECTIONS, connection_timeout_secs := 10, idle_timeout_secs := 180, max_lifetime_secs := 3600 } : PgPoolConfig) =
        { max_size := calculate_optimal_pool_size max_conn 1 MIN_RESERVED_CONNECTIONS, connection_timeout_secs := 10, idle_timeout_secs := 180, max_lifetime_secs := 3600 }) ∧
    calculate_optimal_pool_size 100 1 MIN_RESERVED_CONNECTIONS = 90 := by
  constructor
  · exact c10_establish_connection_fixed_args.2 true (Except.ok 100) true true
      _ rfl
  · rw [calc_pool_size_eq_spec 100 1 MIN_RESERVED_CONNECTIONS (by decide)
      (by decide) (by decide) (by decide) (by decide) (by decide)]
    decide


/-! ## cache_key inversion and the key-separation property -/

theorem strData_append (a b : String) : (a ++ b).data = a.data ++ b.data := by
  cases a
  cases b
  rfl

/-- A key component: `none` or a rendered timestamp. -/
def parseComp (l : List Char) : Option (Option TsFields × List Char) :=
  match l with
  | [] => none
  | c :: rest =>
      if c = 'n' then
        match rest with
        | 'o' :: 'n' :: 'e' :: rest2 => some (none, rest2)
        | _ => none
      else (parseTs (c :: rest)).map (fun p => (some p.1, p.2))

/-- Strip an expected literal prefix. -/
def stripPrefixChars : List Char → List Char → Option (List Char)
  | [], l => some l
  | _ :: _, [] => none
  | p :: ps, c :: cs => if c = p then stripPrefixChars ps cs else none

/-- Invert `cache_key`: the kind characters and the two components. -/
def parseKey (l : List Char) :
    Option (List Char × Option TsFields × Option TsFields) :=
  (stripPrefixChars "energy:aggregate:".data l).bind fun l1 =>
  (expectChar ':' (l1.dropWhile (fun c => !(c == ':')))).bind fun l2 =>
  (parseComp l2).bind fun c1 =>
  (expectChar ':' c1.2).bind fun c2l =>
  (parseComp c2l).bind fun c2 =>
  if c2.2.isEmpty then
    some (l1.takeWhile (fun c => !(c == ':')), c1.1, c2.1)
  else none

theorem stripPrefixChars_append : ∀ (pre rest : List Char),
    stripPrefixChars pre (pre ++ rest) = some rest := by
  intro pre
  induction pre with
  | nil => intro rest; rfl
  | cons p ps ih =>
      intro rest
      show stripPrefixChars (p :: ps) (p :: (ps ++ rest)) = some rest
      simp only [stripPrefixChars]
      rw [if_pos trivial]
      exact ih rest

theorem parseComp_none (rest : List Char) :
    parseComp ('n' :: 'o' :: 'n' :: 'e' :: rest) = some (none, rest) := by
  simp [parseComp]

theorem parseComp_render (t : Timestamp) (hv : t.nanos < 10 ^ 9)
    (rest : List Char) :
    parseComp (renderTs t ++ rest) = some (some (tsFields t), rest) := by
  obtain ⟨c, l, hcl, hcn⟩ := renderTs_head t
  rw [hcl, List.cons_append]
  simp only [parseComp]
  rw [if_neg hcn]
  rw [show c :: (l ++ rest) = renderTs t ++ rest by rw [hcl, List.cons_append]]
  rw [parseTs_render t hv rest]
  rfl

theorem kindAll : ∀ (k : AggregationType),
    ∀ x ∈ (AggregationType.display k).data, (!(x == ':')) = true := by
  intro k
  cases k <;> decide

theorem display_data_inj : ∀ a b : AggregationType,
    (AggregationType.display a).data = (AggregationType.display b).data →
    a = b := by
  intro a b
  cases a <;> cases b <;> decide

/-- Which nanosecond counts are renderable faithfully. -/
def optValid : Option Timestamp → Prop
  | none => True
  | some t => t.nanos < 10 ^ 9

/-- The component characters a boundary renders to. -/
def compChars : Option Timestamp → List Char
  | none => ['n', 'o', 'n', 'e']
  | some d => renderTs d

theorem cache_key_data (k : AggregationType) (o1 o2 : Option Timestamp) :
    (cache_key ⟨k, o1, o2⟩).data =
      "energy:aggregate:".data ++ ((AggregationType.display k).data ++
        ':' :: (compChars o1 ++ ':' :: compChars o2)) := by
  show ("energy:aggregate:" ++ AggregationType.display k ++ ":" ++
      (match o1 with
       | none => "none"
       | some d => to_rfc3339 d) ++ ":" ++
      (match o2 with
       | none => "none"
       | some d => to_rfc3339 d)).data = _
  have hc1 : (match o1 with
      | none => "none"
      | some d => to_rfc3339 d).data = compChars o1 := by
    cases o1 with
    | none => rfl
    | some d => rfl
  have hc2 : (match o2 with
      | none => "none"
      | some d => to_rfc3339 d).data = compChars o2 := by
    cases o2 with
    | none => rfl
    | some d => rfl
  simp only [strData_append, hc1, hc2, List.append_assoc]
  rfl

theorem parseComp_comp (o : Option Timestamp) (hv : optValid o)
    (rest : List Char) :
    parseComp (compChars o ++ rest) = some (o.map tsFields, rest) := by
  cases o with
  | none =>
      show parseComp ('n' :: 'o' :: 'n' :: 'e' :: rest) = some (none, rest)
      exact parseComp_none rest
  | some d => exact parseComp_render d hv rest

/-- Reading back a rendered cache key recovers the kind characters and
both boundary components. -/
theorem parseKey_key (k : AggregationType) (o1 o2 : Option Timestamp)
    (hv1 : optValid o1) (hv2 : optValid o2) :
    parseKey ((cache_key ⟨k, o1, o2⟩).data) =
      some ((AggregationType.display k).data, o1.map tsFields,
        o2.map tsFields) := by
  obtain ⟨hT, hD⟩ := span_split (fun c => !(c == ':'))
    ((AggregationType.display k).data) ':'
    (compChars o1 ++ ':' :: compChars o2) (kindAll k) (by decide)
  rw [cache_key_data]
  unfold parseKey
  rw [stripPrefixChars_append]
  simp only [Option.some_bind]
  rw [hD, expectChar_cons]
  simp only [Option.some_bind]
  rw [parseComp_comp o1 hv1]
  simp only [Option.some_bind]
  rw [expectChar_cons]
  simp only [Option.some_bind]
  have h2 := parseComp_comp o2 hv2 []
  rw [List.append_nil] at h2
  rw [h2]
  simp only [Option.some_bind]
  rw [hT]
  rfl

/-- C9: `cache_key` is deterministic (it is a function of the request
triple) and separating: on requests whose boundary timestamps carry valid
nanosecond fields, equal keys force equal (kind, from, to) triples — so
changing the kind, or changing, adding or removing either boundary, changes
the key; and the absent-boundary token `"none"` never equals an RFC 3339
rendering. -/
theorem c9_cache_key_separating :
    (∀ p1 p2 : AggregateRequest,
        optValid p1.date_from → optValid p1.date_to →
        optValid p2.date_from → optValid p2.date_to →
        cache_key p1 = cache_key p2 → p1 = p2) ∧
    (∀ t : Timestamp, to_rfc3339 t ≠ "none") := by
  constructor
  · intro p1 p2 v1f v1t v2f v2t h
    obtain ⟨k1, o1f, o1t⟩ := p1
    obtain ⟨k2, o2f, o2t⟩ := p2
    have hd : (cache_key ⟨k1, o1f, o1t⟩).data =
        (cache_key ⟨k2, o2f, o2t⟩).data := by rw [h]
    have r1 := parseKey_key k1 o1f o1t v1f v1t
    have r2 := parseKey_key k2 o2f o2t v2f v2t
    rw [hd, r2] at r1
    simp only [Option.some.injEq, Prod.mk.injEq] at r1
    obtain ⟨hk, hf, ht⟩ := r1
    have hkk : k1 = k2 := (display_data_inj k2 k1 hk).symm
    have hof : o1f = o2f := by
      cases o1f with
      | none =>
          cases o2f with
          | none => rfl
          | some d => simp at hf
      | some d1 =>
          cases o2f with
          | none => simp at hf
          | some d2 =>
              simp only [Option.map_some', Option.some.injEq] at hf
              rw [tsFields_inj hf]
    have hot : o1t = o2t := by
      cases o1t with
      | none =>
          cases o2t with
          | none => rfl
          | some d => simp at ht
      | some d1 =>
          cases o2t with
          | none => simp at ht
          | some d2 =>
              simp only [Option.map_some', Option.some.injEq] at ht
              rw [tsFields_inj ht]
    rw [hkk, hof, hot]
  · intro t h
    obtain ⟨c, l, hcl, hcn⟩ := renderTs_head t
    have hd : renderTs t = "none".data := by
      show (to_rfc3339 t).data = "none".data
      rw [h]
    rw [hcl] at hd
    have h2 : c :: l = 'n' :: ['o', 'n', 'e'] := hd
    injection h2 with h3 h4
    exact hcn h3

theorem c9_cache_key_separating_witness :
    (⟨AggregationType.hourly, none, none⟩ : AggregateRequest) =
      ⟨AggregationType.hourly, none, none⟩ ∧
    to_rfc3339 ⟨0, 0⟩ ≠ "none" :=
  ⟨c9_cache_key_separating.1 ⟨AggregationType.hourly, none, none⟩
      ⟨AggregationType.hourly, none, none⟩ trivial trivial trivial trivial rfl,
   c9_cache_key_separating.2 ⟨0, 0⟩⟩

end Renewabl
